import Mathlib

/-!
# Sha1Bomb: a verification development

A shallow embedding of `Sha1Bomb.cpp` (the SHA-1 class, the `check` registry
function and the attack loops of `main`) together with theorems about it.

Conventions of the embedding:

* a C++ `char` / `uint8_t` is a `Byte` (`Fin 256`), a `std::string` is a
  `Str` (`List Byte`);
* `uint32_t` and `uint64_t` values are natural numbers, reduced modulo
  `2^32` / `2^64` at every operation that can overflow;
* `for`/`while` loops are structurally recursive functions; where a loop
  counts, the recursion carries the source guard and a fuel argument that
  is initialised with the number of iterations the guard allows.
-/

set_option maxRecDepth 100000

namespace Sha1Bomb

/-- One `char` / `uint8_t`. -/
abbrev Byte := Fin 256

/-- A `std::string`, viewed as its sequence of bytes. -/
abbrev Str := List Byte

/-- The bytes of an ASCII string literal. -/
def str (s : String) : Str := s.toList.map (fun c => Fin.ofNat c.toNat)

/-! ## SHA-1 -/

/-- The member variables of `class SHA1`: `hash[5]`, `block[64]`, `block_len`, `total_len`. -/
structure SHA1 where
  hash : List Nat
  block : List Byte
  block_len : Nat
  total_len : Nat
  deriving DecidableEq, Repr

/-- `SHA1::rotate_left` on `uint32_t`. -/
def rotate_left (value bits : Nat) : Nat :=
  ((value <<< bits) % 2 ^ 32) ||| (value >>> (32 - bits))

/-- The first loop of `process_block`: sixteen big-endian words read from the block. -/
def first16 (block : List Byte) : List Nat :=
  (List.range 16).map (fun i =>
    (((block.getD (i * 4) 0).val <<< 24) ||| ((block.getD (i * 4 + 1) 0).val <<< 16)
      ||| ((block.getD (i * 4 + 2) 0).val <<< 8) ||| (block.getD (i * 4 + 3) 0).val) % 2 ^ 32)

/-- The second loop of `process_block`: `w[i]` for `i = 16, ..., 79`, appended one at a time. -/
def expand (w16 : List Nat) : List Nat :=
  (List.range 64).foldl (fun w k =>
    let i := k + 16
    w ++ [rotate_left (w.getD (i - 3) 0 ^^^ w.getD (i - 8) 0 ^^^ w.getD (i - 14) 0
      ^^^ w.getD (i - 16) 0) 1]) w16

/-- Bitwise complement of a `uint32_t`. -/
def not32 (b : Nat) : Nat := (2 ^ 32 - 1) ^^^ b

/-- The working variables `a, b, c, d, e` of `process_block`. -/
structure Work where
  a : Nat
  b : Nat
  c : Nat
  d : Nat
  e : Nat
  deriving DecidableEq, Repr

/-- One iteration of the main loop of `process_block`, for round `i`. -/
def round (w : List Nat) (v : Work) (i : Nat) : Work :=
  let fk : Nat × Nat :=
    if i < 20 then ((v.b &&& v.c) ||| (not32 v.b &&& v.d), 0x5A827999)
    else if i < 40 then (v.b ^^^ v.c ^^^ v.d, 0x6ED9EBA1)
    else if i < 60 then ((v.b &&& v.c) ||| (v.b &&& v.d) ||| (v.c &&& v.d), 0x8F1BBCDC)
    else (v.b ^^^ v.c ^^^ v.d, 0xCA62C1D6)
  let temp := (rotate_left v.a 5 + fk.1 + v.e + fk.2 + w.getD i 0) % 2 ^ 32
  { a := temp, b := v.a, c := rotate_left v.b 30, d := v.c, e := v.d }

/-- The effect of `process_block` on `hash`, as a function of the old hash words and
the 64 bytes of the block. -/
def compress (hash : List Nat) (block : List Byte) : List Nat :=
  let w := expand (first16 block)
  let v0 : Work :=
    { a := hash.getD 0 0, b := hash.getD 1 0, c := hash.getD 2 0, d := hash.getD 3 0,
      e := hash.getD 4 0 }
  let v := (List.range 80).foldl (round w) v0
  [(hash.getD 0 0 + v.a) % 2 ^ 32, (hash.getD 1 0 + v.b) % 2 ^ 32,
   (hash.getD 2 0 + v.c) % 2 ^ 32, (hash.getD 3 0 + v.d) % 2 ^ 32,
   (hash.getD 4 0 + v.e) % 2 ^ 32]

/-- `SHA1::process_block`. -/
def SHA1.process_block (s : SHA1) : SHA1 :=
  { s with hash := compress s.hash s.block }

/-- The initial values of `hash[0..4]`. -/
def initHash : List Nat := [0x67452301, 0xEFCDAB89, 0x98BADCFE, 0x10325476, 0xC3D2E1F0]

/-- The constructor `SHA1()`. The block buffer is left uninitialised by the source; it is
taken as all zero here, and no byte of it is read before it has been written. -/
def SHA1.new : SHA1 :=
  { hash := initHash, block := List.replicate 64 0, block_len := 0, total_len := 0 }

/-- The statement `block[block_len++] = v`. -/
def SHA1.put (s : SHA1) (v : Byte) : SHA1 :=
  { s with block := s.block.set s.block_len v, block_len := s.block_len + 1 }

/-- The body of the loop of `SHA1::update` for one input byte. -/
def SHA1.updateByte (s : SHA1) (v : Byte) : SHA1 :=
  let s1 := s.put v
  if s1.block_len = 64 then { s1.process_block with block_len := 0 } else s1

/-- `SHA1::update(data, len)`, the pair `(data, len)` being the list of bytes. -/
def SHA1.update (s : SHA1) (data : List Byte) : SHA1 :=
  let s1 := data.foldl SHA1.updateByte s
  { s1 with total_len := (s1.total_len + data.length) % 2 ^ 64 }

/-- The loop `while (block_len < limit) block[block_len++] = 0;`. -/
def SHA1.zeroFill (limit : Nat) : Nat → SHA1 → SHA1
  | 0, s => s
  | fuel + 1, s => if s.block_len < limit then SHA1.zeroFill limit fuel (s.put 0) else s

/-- The loop of `finalize` that stores `bit_len` big-endian into `block[56..63]`:
`i` runs from `7` down to `0`; the argument counts the iterations left. -/
def storeLen : Nat → List Byte → Nat → List Byte
  | 0, block, _ => block
  | i + 1, block, bit_len =>
    storeLen i (block.set (56 + i) (Fin.ofNat (bit_len &&& 0xFF))) (bit_len >>> 8)

/-- One lowercase hexadecimal digit. -/
def hexDigit (d : Nat) : Byte :=
  if d < 10 then Fin.ofNat (48 + d) else Fin.ofNat (87 + d)

/-- The digits of `n` in base `base`, most significant first, as the stream inserter
and `to_string` print an unsigned number: at least one digit, no leading zero. -/
def numeral (base : Nat) : Nat → Nat → Str → Str
  | 0, _, acc => acc
  | fuel + 1, n, acc =>
    if n / base = 0 then hexDigit (n % base) :: acc
    else numeral base fuel (n / base) (hexDigit (n % base) :: acc)

/-- The loop `while (s.length() < width) s = fill + s;`, also the effect of
`setw(width) << setfill(fill)` on a right-aligned field. -/
def padLeft (fill : Byte) (width : Nat) : Nat → Str → Str
  | 0, s => s
  | fuel + 1, s => if s.length < width then padLeft fill width fuel (fill :: s) else s

/-- What `result << hex << setw(8) << setfill('0') << x` appends for a `uint32_t`. -/
def hex8 (x : Nat) : Str :=
  let digits := numeral 16 (x + 1) x []
  padLeft 48 8 (8 - digits.length) digits

/-- The conversion loop at the end of `finalize`. -/
def toHex (hash : List Nat) : Str :=
  (List.range 5).foldl (fun result i => result ++ hex8 (hash.getD i 0)) []

/-- The state of the hasher when `finalize` reaches its last `process_block` call
included, i.e. everything before the hex conversion. -/
def SHA1.finalState (s : SHA1) : SHA1 :=
  let s1 := s.put 0x80
  let s2 :=
    if s1.block_len > 56 then
      { (SHA1.zeroFill 64 (64 - s1.block_len) s1).process_block with block_len := 0 }
    else s1
  let s3 := SHA1.zeroFill 56 (56 - s2.block_len) s2
  let bit_len := (s3.total_len * 8) % 2 ^ 64
  let s4 := { s3 with block := storeLen 8 s3.block bit_len }
  let s5 := { s4 with block_len := 64 }
  s5.process_block

/-- `SHA1::finalize`. -/
def SHA1.finalize (s : SHA1) : Str := toHex s.finalState.hash

/-- The wrapper `sha1(input)`. -/
def sha1 (input : Str) : Str := (SHA1.new.update input).finalize

/-! ## The registry: the global variables and `check` -/

/-- A `std::map<string, string>`, as the list of its entries. Only `count`, `size` and
`operator[]` are used on the two maps while the attacks run, and none of them observes the
order of the entries. -/
abbrev SMap := List (Str × Str)

/-- `m.count(k)`. -/
def mapCount (m : SMap) (k : Str) : Nat := if m.any (fun e => e.1 = k) then 1 else 0

/-- The value stored under `k`, if there is one. -/
def mapFind (m : SMap) (k : Str) : Option Str :=
  match m with
  | [] => none
  | e :: rest => if e.1 = k then some e.2 else mapFind rest k

/-- `m[k]` read on a map: the value stored under `k` (empty when absent). -/
def mapGet (m : SMap) (k : Str) : Str := (mapFind m k).getD []

/-- `m[k] = v`: overwrite the value of an existing key, or add a new entry. -/
def mapAssign (m : SMap) (k v : Str) : SMap :=
  match m with
  | [] => [(k, v)]
  | e :: rest => if e.1 = k then (k, v) :: rest else e :: mapAssign rest k v

/-- `m.size()`. -/
def mapSize (m : SMap) : Nat := m.length

/-- The global variables `hashes`, `cracked` and `attempts` (a `long long`, far from its
bound in any run), the discovery lines written to `cout` (as pairs of label and
password), and a ghost history `tested` of the arguments `check` has been called with,
which no code reads. -/
structure State where
  hashes : SMap
  cracked : SMap
  attempts : Nat
  events : List (Str × Str)
  tested : List Str
  deriving DecidableEq, Repr

/-- `check(password)`: the returned flag and the state afterwards. -/
def check (password : Str) (st : State) : Bool × State :=
  let st1 := { st with attempts := st.attempts + 1, tested := st.tested ++ [password] }
  let hash_value := sha1 password
  if mapCount st1.hashes hash_value ≠ 0 ∧ ¬ (mapCount st1.cracked hash_value ≠ 0) then
    (true, { st1 with
      cracked := mapAssign st1.cracked hash_value password
      events := st1.events ++ [(mapGet st1.hashes hash_value, password)] })
  else (false, st1)

/-! ## Loading -/

/-- Membership in the set `" \r\n\t"` used by `trim`. -/
def isTrimChar (c : Byte) : Bool := c.val = 32 || c.val = 13 || c.val = 10 || c.val = 9

/-- `trim(str)`: erase after the last and before the first character outside `" \r\n\t"`. -/
def trim (s : Str) : Str := ((s.reverse.dropWhile isTrimChar).reverse).dropWhile isTrimChar

/-- `isspace` in the "C" locale, the separator of `operator>>`. -/
def isspace (c : Byte) : Bool := c.val = 32 || (9 ≤ c.val && c.val ≤ 13)

/-- `iss >> token`: skip white space, read up to the next white space; the extracted token
(empty when there is none) and the unread rest of the stream. -/
def extract (s : Str) : Str × Str :=
  let s1 := s.dropWhile isspace
  (s1.takeWhile (fun c => !isspace c), s1.dropWhile (fun c => !isspace c))

/-- `to_string(n)` for a non-negative integer. -/
def to_string (n : Nat) : Str := numeral 10 (n + 1) n []

/-- The body of the loop that reads the password file: `hashes` and `user_id` before and
after one line. The `int` counter `user_id` is a natural number here. -/
def loadLine (acc : SMap × Nat) (line : Str) : SMap × Nat :=
  let line := trim line
  let r1 := extract line
  let first := r1.1
  let second := (extract r1.2).1
  if second.isEmpty then (mapAssign acc.1 first (to_string acc.2), acc.2 + 1)
  else (mapAssign acc.1 second first, acc.2 + 1)

/-- The map `hashes` after the password file, given as its lines, has been read. -/
def loadTargets (lines : List Str) : SMap := (lines.foldl loadLine ([], 1)).1

/-- The BOM test and removal applied to a trimmed dictionary line. -/
def stripBOM (line : Str) : Str :=
  if !line.isEmpty && (line.getD 0 0).val = 0xEF && line.length ≥ 3 then
    if (line.getD 1 0).val = 0xBB && (line.getD 2 0).val = 0xBF then line.drop 3 else line
  else line

/-- The body of the loop that reads the dictionary: `words` and `priority` before and after
one line. -/
def loadDictLine (acc : List Str × List Str) (line : Str) : List Str × List Str :=
  let line := stripBOM (trim line)
  if !line.isEmpty then
    (acc.1 ++ [line], if line.length ≤ 14 then acc.2 ++ [line] else acc.2)
  else acc

/-- The vectors `words` and `priority` (before sorting) once the dictionary is read. -/
def loadDict (lines : List Str) : List Str × List Str := lines.foldl loadDictLine ([], [])

/-- `operator<` on `std::string`: lexicographic comparison of the bytes. -/
def strLt : Str → Str → Bool
  | [], [] => false
  | [], _ :: _ => true
  | _ :: _, [] => false
  | a :: as, b :: bs => if a < b then true else if b < a then false else strLt as bs

/-- The comparison passed to `sort`. -/
def priorityLess (a b : Str) : Bool :=
  a.length < b.length || (a.length == b.length && strLt a b)

/-- Insertion of one element into a list ordered by `less`. -/
def sortInsert (less : Str → Str → Bool) (x : Str) : List Str → List Str
  | [] => [x]
  | y :: ys => if less x y then x :: y :: ys else y :: sortInsert less x ys

/-- `std::sort(begin, end, less)`, as insertion sort. The standard leaves the algorithm
open; it fixes the result whenever `less` is a strict total order, as `priorityLess` is. -/
def stdSort (less : Str → Str → Bool) (l : List Str) : List Str :=
  l.foldr (sortInsert less) []

/-- The vector `priority` after the `sort` call. -/
def priorityOf (lines : List Str) : List Str := stdSort priorityLess (loadDict lines).2

/-- `::tolower` in the "C" locale. -/
def tolower (c : Byte) : Byte := if 65 ≤ c.val ∧ c.val ≤ 90 then Fin.ofNat (c.val + 32) else c

/-- `transform(s.begin(), s.end(), s.begin(), ::tolower)`. -/
def lower (s : Str) : Str := s.map tolower

/-! ## The attacks -/

/-- The guard `cracked.size() < hashes.size()`. -/
def incomplete (st : State) : Bool := mapSize st.cracked < mapSize st.hashes

/-- The test `cracked.size() == hashes.size()`. -/
def complete (st : State) : Bool := mapSize st.cracked = mapSize st.hashes

/-- The value of `max_num` after `for (int i = 0; i < length; i++) max_num *= 10;`.
The `long long` product is exact for `length <= 18`; the program stops at 8. -/
def maxNum (length : Nat) : Nat := (List.range length).foldl (fun m _ => m * 10) 1

/-- The candidate of attack 1 for `length` and `num`: `to_string(num)`, then a `"0"` put in
front while it is shorter than `length`. -/
def digitPassword (length num : Nat) : Str :=
  let password := to_string num
  padLeft 48 length (length - password.length) password

/-- The inner loop of attack 1, from `num` on; the fuel is `max_num - num`. -/
def bruteInner (length max_num : Nat) : Nat → Nat → State → State
  | 0, _, st => st
  | fuel + 1, num, st =>
    if num < max_num ∧ incomplete st = true then
      bruteInner length max_num fuel (num + 1) (check (digitPassword length num) st).2
    else st

/-- The outer loop of attack 1, from `length` on, up to `maxLength` (8 in the source);
the fuel is `maxLength + 1 - length`. -/
def bruteOuter (maxLength : Nat) : Nat → Nat → State → State
  | 0, _, st => st
  | fuel + 1, length, st =>
    if length ≤ maxLength ∧ incomplete st = true then
      bruteOuter maxLength fuel (length + 1)
        (bruteInner length (maxNum length) (maxNum length) 0 st)
    else st

/-- Attack 1, brute force over digit strings of length `1..maxLength`. -/
def attack1 (maxLength : Nat) (st : State) : State := bruteOuter maxLength maxLength 1 st

/-- Attack 2, the dictionary words. -/
def attack2 : List Str → State → State
  | [], st => st
  | word :: rest, st =>
    let r := check (lower word) st
    if r.1 = true ∧ complete r.2 = true then r.2 else attack2 rest r.2

/-- The inner loop of attack 3 for the first word `wi`, over the remaining second words. -/
def pairInner (wi : Str) : List Str → State → State
  | [], st => st
  | wj :: rest, st =>
    if incomplete st = true then
      let combo := lower (wi ++ wj)
      pairInner wi rest
        (if combo.length ≥ 6 ∧ combo.length ≤ 28 then (check combo st).2 else st)
    else st

/-- The outer loop of attack 3 over the remaining first words. -/
def pairOuter (priority : List Str) : List Str → State → State
  | [], st => st
  | wi :: rest, st =>
    if incomplete st = true then pairOuter priority rest (pairInner wi priority st) else st

/-- Attack 3, the two-word combinations. -/
def attack3 (priority : List Str) (st : State) : State := pairOuter priority priority st

/-- The inner loop of attack 4 for one lower-cased word, from `digits` on; the fuel is
`10000 - digits`. -/
def hybridInner (lower_word : Str) : Nat → Nat → State → State
  | 0, _, st => st
  | fuel + 1, digits, st =>
    if digits < 10000 ∧ incomplete st = true then
      hybridInner lower_word fuel (digits + 1) (check (lower_word ++ to_string digits) st).2
    else st

/-- Attack 4, every word followed by the numbers `0..9999`. -/
def attack4 : List Str → State → State
  | [], st => st
  | word :: rest, st =>
    if complete st = true then st
    else attack4 rest (hybridInner (lower word) 10000 0 st)

/-- The state in which the attacks start. -/
def startState (hashes : SMap) : State :=
  { hashes := hashes, cracked := [], attempts := 0, events := [], tested := [] }

/-- The part of `main` after loading the targets: attack 1, then, when `dictionary.txt`
can be read (`dict` holds its lines), attacks 2, 3 and 4. -/
def runAttacks (hashes : SMap) (dict : Option (List Str)) : State :=
  let st1 := attack1 8 (startState hashes)
  match dict with
  | none => st1
  | some lines =>
    let words := (loadDict lines).1
    let priority := priorityOf lines
    attack4 words (attack3 priority (attack2 words st1))

/-- The program `main` up to the results summary, from the lines of the password file
(none when it cannot be read) and of the dictionary. -/
def main (targetLines : List Str) (dict : Option (List Str)) : State :=
  runAttacks (loadTargets targetLines) dict

/-! ## Specification-side definitions for the padding -/

/-- The big-endian encoding of the low 64 bits of `n` in eight bytes. -/
def be64 (n : Nat) : List Byte :=
  (List.range 8).map (fun i => Fin.ofNat (n / 256 ^ (7 - i) % 256))

/-- The number of zero bytes of the padding of a message of `len` bytes. -/
def padZeros (len : Nat) : Nat := (119 - len % 64) % 64

/-- The padded message: the message, `0x80`, the zero bytes, the bit length. -/
def pad (m : List Byte) : List Byte :=
  m ++ [0x80] ++ List.replicate (padZeros m.length) 0 ++ be64 (8 * m.length)

/-- The first `n` consecutive 64-byte blocks of `l`. -/
def blocks : Nat → List Byte → List (List Byte)
  | 0, _ => []
  | n + 1, l => l.take 64 :: blocks n (l.drop 64)

/-- The consecutive 64-byte blocks of `l`. -/
def blocksOf (l : List Byte) : List (List Byte) := blocks (l.length / 64) l

/-- The hash words after `process_block` has been folded over the blocks of `l`. -/
def hashBlocks (h : List Nat) (l : List Byte) : List Nat := (blocksOf l).foldl compress h

/-! ## Specification-side and auxiliary definitions used in the theorems -/

/-- The buffer has 64 cells and the position is inside it. -/
def SHA1.wf (s : SHA1) : Prop := s.block.length = 64 ∧ s.block_len < 64

/-- The bytes written to the buffer since it was last processed. -/
def SHA1.pending (s : SHA1) : List Byte := s.block.take s.block_len

/-- The low `i` bytes of `n`, most significant first, as `storeLen` computes them. -/
def beBytes : Nat → Nat → List Byte
  | 0, _ => []
  | i + 1, n => beBytes i (n >>> 8) ++ [Fin.ofNat (n &&& 0xFF)]

/-- The sixteen lowercase hexadecimal digits. -/
def hexChars : Str := str "0123456789abcdef"

/-- The value of a digit character written by `hexDigit`. -/
def digitValue (c : Byte) : Nat := if c.val < 58 then c.val - 48 else c.val - 87

/-- The number a digit string denotes in base `base`, most significant digit first. -/
def numeralValue (base : Nat) (s : Str) : Nat :=
  s.foldl (fun a c => base * a + digitValue c) 0

/-- The keys of a map. -/
def keys (m : SMap) : List Str := m.map Prod.fst

/-- The state after `check` has been called on each candidate of a list in turn. -/
def checkAll (cands : List Str) (st : State) : State :=
  cands.foldl (fun s p => (check p s).2) st

/-- The registry is incomplete before each candidate of the list is tested, when the
candidates are tested in order starting from `st`. -/
def neverComplete : List Str → State → Bool
  | [], _ => true
  | c :: cs, st => incomplete st && neverComplete cs (check c st).2

/-- The candidates of attack 1 of length `L`: the numbers `0, ..., 10^L - 1` in ascending
order, each rendered by the loop body. -/
def digitGroup (L : Nat) : List Str := (List.range (10 ^ L)).map (digitPassword L)

/-- The candidates of attack 1 for maximum length `M`: the groups for `L = 1, ..., M`. -/
def digitCandidates (M : Nat) : List Str := (List.range' 1 M).flatMap digitGroup

/-- The length filter of attack 3. -/
def comboInRange (c : Str) : Bool := decide (c.length ≥ 6 ∧ c.length ≤ 28)

/-- The candidates of attack 3: over the ordered pairs of the priority list in row-major
order, the lower-cased concatenation, kept when its length lies in `[6, 28]`. -/
def pairCandidates (priority : List Str) : List Str :=
  ((List.product priority priority).map (fun ij => lower (ij.1 ++ ij.2))).filter comboInRange

/-- The invariant of the registry along a run that starts with an empty cracked map:
no digest is cracked twice, every cracked digest is a target, every tested candidate
whose digest is a target has its digest cracked, and the plaintext recorded for a digest
is the first tested candidate with that digest. -/
def Inv (st : State) : Prop :=
  (keys st.cracked).Nodup ∧
  (∀ h ∈ keys st.cracked, h ∈ keys st.hashes) ∧
  (∀ c ∈ st.tested, sha1 c ∈ keys st.hashes → sha1 c ∈ keys st.cracked) ∧
  (∀ e ∈ st.cracked, st.tested.find? (fun c => decide (sha1 c = e.1)) = some e.2)

/-- The loop result `r` comes from `st` by testing candidates of the enumeration `full`
in order, either all of them or up to a point where the registry is no longer
incomplete. -/
def RunsTo (full : List Str) (st r : State) : Prop :=
  ∃ cs, r = checkAll cs st ∧ (cs = full ∨ incomplete r = false)

/-- The candidates of attack 2: the dictionary words, lower-cased, in file order. -/
def wordCandidates (words : List Str) : List Str := words.map lower

/-- The candidates of attack 4: for each dictionary word in file order, the lower-cased
word followed by `to_string n` for `n = 0, ..., 9999` in ascending order. -/
def hybridCandidates (words : List Str) : List Str :=
  words.flatMap (fun w => (List.range 10000).map (fun n => lower w ++ to_string n))

/-- A token: a non-empty string without white space. -/
def isToken (t : Str) : Bool := !t.isEmpty && t.all (fun c => !isspace c)

/-- A possibly empty run of white space. -/
def isBlank (b : Str) : Bool := b.all isspace

/-- A line of the password file that carries one or two tokens: white space, then either
the digest alone, or a label, white space and the digest, then white space. -/
inductive TargetLine where
  | single (pre digest post : Str)
  | labelled (pre label mid digest post : Str)

/-- The text of the line. -/
def TargetLine.render : TargetLine → Str
  | .single pre digest post => pre ++ digest ++ post
  | .labelled pre label mid digest post => pre ++ label ++ mid ++ digest ++ post

/-- The parts of the line are tokens and white space as described. -/
def TargetLine.wf : TargetLine → Bool
  | .single pre digest post => isBlank pre && isToken digest && isBlank post
  | .labelled pre label mid digest post =>
    isBlank pre && isToken label && isBlank mid && !mid.isEmpty && isToken digest
      && isBlank post

/-- The digest token of the line. -/
def TargetLine.digest : TargetLine → Str
  | .single _ digest _ => digest
  | .labelled _ _ _ digest _ => digest

/-- The label the `k`-th line is to receive: its first token when it has two, else the
decimal numeral of `k`. -/
def TargetLine.labelAt (k : Nat) : TargetLine → Str
  | .single _ _ _ => to_string k
  | .labelled _ label _ _ _ => label

/-- The percentage of the results summary, `100 * cracked.size() / hashes.size()`: an
unsigned integer division, which has no result when the divisor is zero. -/
def summaryPercent (st : State) : Option Nat :=
  if mapSize st.hashes = 0 then none else some (100 * mapSize st.cracked / mapSize st.hashes)

/-- A string of decimal digits. -/
def isDigits (s : Str) : Prop := ∀ b ∈ s, 48 ≤ b.val ∧ b.val ≤ 57

/-- The enumerated search space: a digit string of length 1 to 8, or, when a dictionary
is present, a lower-cased dictionary word, the lower-cased concatenation of two priority
words with a length in `[6, 28]`, or a lower-cased word followed by the decimal numeral of
a number below 10000. -/
def inSearchSpace (dict : Option (List Str)) (c : Str) : Prop :=
  (1 ≤ c.length ∧ c.length ≤ 8 ∧ isDigits c) ∨
  ∃ lines, dict = some lines ∧
    ((∃ w ∈ (loadDict lines).1, c = lower w) ∨
     (∃ a ∈ priorityOf lines, ∃ b ∈ priorityOf lines,
        c = lower (a ++ b) ∧ 6 ≤ c.length ∧ c.length ≤ 28) ∨
     (∃ w ∈ (loadDict lines).1, ∃ n, n < 10000 ∧ c = lower w ++ to_string n))

/-- The indices at which `update` executes `block[block_len++] = data[i]`, in order. -/
def SHA1.updateWrites : SHA1 → List Byte → List Nat
  | _, [] => []
  | s, v :: rest => s.block_len :: SHA1.updateWrites (s.updateByte v) rest

/-- The indices written by the loop `while (block_len < limit) block[block_len++] = 0;`,
with the control flow of `SHA1.zeroFill`. -/
def SHA1.zeroFillWrites (limit : Nat) : Nat → SHA1 → List Nat
  | 0, _ => []
  | fuel + 1, s =>
    if s.block_len < limit then s.block_len :: SHA1.zeroFillWrites limit fuel (s.put 0)
    else []

/-- The indices `56 + i` written by the length loop of `finalize`, with the control flow
of `storeLen`. -/
def storeLenWrites : Nat → List Nat
  | 0 => []
  | i + 1 => (56 + i) :: storeLenWrites i

/-- The buffer indices written by `finalize`, in order, and the number of calls of
`process_block`, with the control flow of `SHA1.finalState`. -/
def SHA1.finalizeLog (s : SHA1) : List Nat × Nat :=
  let s1 := s.put 0x80
  let w1 := [s.block_len]
  if s1.block_len > 56 then
    let w2 := SHA1.zeroFillWrites 64 (64 - s1.block_len) s1
    let s2 : SHA1 :=
      { (SHA1.zeroFill 64 (64 - s1.block_len) s1).process_block with block_len := 0 }
    let w3 := SHA1.zeroFillWrites 56 (56 - s2.block_len) s2
    (w1 ++ w2 ++ w3 ++ storeLenWrites 8, 1 + 1)
  else
    let w3 := SHA1.zeroFillWrites 56 (56 - s1.block_len) s1
    (w1 ++ w3 ++ storeLenWrites 8, 0 + 1)

/-! # Theorems

## The hasher: block buffer, padding, finalisation -/

theorem blocksOf_append64 (a b : List Byte) (ha : a.length = 64) :
    blocksOf (a ++ b) = a :: blocksOf b := by
  have h1 : (a ++ b).length / 64 = b.length / 64 + 1 := by
    rw [List.length_append, ha]; omega
  unfold blocksOf
  rw [h1, blocks, List.take_left' ha, List.drop_left' ha]

theorem hashBlocks_append64 (h : List Nat) (a b : List Byte) (ha : a.length = 64) :
    hashBlocks h (a ++ b) = hashBlocks (compress h a) b := by
  unfold hashBlocks
  rw [blocksOf_append64 a b ha, List.foldl_cons]

theorem hashBlocks_short (h : List Nat) (a : List Byte) (ha : a.length < 64) :
    hashBlocks h a = h := by
  unfold hashBlocks blocksOf
  rw [Nat.div_eq_of_lt ha]; rfl

theorem take_set_succ (l : List Byte) (n : Nat) (v : Byte) (h : n < l.length) :
    (l.set n v).take (n + 1) = l.take n ++ [v] := by
  rw [List.set_eq_take_append_cons_drop, if_pos h]
  have h1 : (List.take n l).length = n := by rw [List.length_take]; omega
  have : List.take n l ++ v :: List.drop (n + 1) l
      = (List.take n l ++ [v]) ++ List.drop (n + 1) l := by simp
  rw [this, List.take_left']
  rw [List.length_append, h1]; rfl

theorem SHA1.put_block_length (s : SHA1) (v : Byte) :
    (s.put v).block.length = s.block.length := by
  simp [SHA1.put]

theorem SHA1.put_pending (s : SHA1) (v : Byte) (h : s.block_len < s.block.length) :
    (s.put v).pending = s.pending ++ [v] := by
  simp only [SHA1.put, SHA1.pending]
  exact take_set_succ s.block s.block_len v h

theorem SHA1.pending_length (s : SHA1) (h : s.block_len ≤ s.block.length) :
    s.pending.length = s.block_len := by
  simp only [SHA1.pending, List.length_take]; omega

theorem take_all {α : Type} (l : List α) (n : Nat) (h : l.length = n) : l.take n = l := by
  subst h; exact List.take_length l

/-- Absorbing one byte keeps the invariant and the hash of the pending message. -/
theorem SHA1.updateByte_spec (s : SHA1) (v : Byte) (hs : s.wf) (tail : List Byte) :
    (s.updateByte v).wf ∧ (s.updateByte v).total_len = s.total_len ∧
    (s.updateByte v).block_len = (s.block_len + 1) % 64 ∧
    hashBlocks (s.updateByte v).hash ((s.updateByte v).pending ++ tail)
      = hashBlocks s.hash (s.pending ++ v :: tail) := by
  obtain ⟨h64, hlt⟩ := hs
  have hput : (s.put v).pending = s.pending ++ [v] := s.put_pending v (by omega)
  have hlen : (s.put v).block.length = 64 := by rw [s.put_block_length, h64]
  have hbl : (s.put v).block_len = s.block_len + 1 := rfl
  by_cases hfull : s.block_len + 1 = 64
  · have hu : s.updateByte v = { (s.put v).process_block with block_len := 0 } := by
      simp [SHA1.updateByte, hbl, hfull]
    have hp : (s.put v).block = s.pending ++ [v] := by
      rw [← hput, SHA1.pending, hbl, hfull]
      exact (take_all _ _ hlen).symm
    rw [hu]
    refine ⟨⟨?_, ?_⟩, rfl, ?_, ?_⟩
    · exact hlen
    · show 0 < 64
      omega
    · show 0 = (s.block_len + 1) % 64
      omega
    · show hashBlocks (compress s.hash (s.put v).block) (List.take 0 (s.put v).block ++ tail) = _
      have h2 : s.pending ++ v :: tail = (s.pending ++ [v]) ++ tail := by simp
      have h3 : (s.pending ++ [v]).length = 64 := by rw [← hp]; exact hlen
      rw [h2, hashBlocks_append64 s.hash _ tail h3, hp]
      rfl
  · have hu : s.updateByte v = s.put v := by
      simp [SHA1.updateByte, hbl, hfull]
    rw [hu]
    refine ⟨⟨hlen, ?_⟩, rfl, ?_, ?_⟩
    · show s.block_len + 1 < 64
      omega
    · show s.block_len + 1 = (s.block_len + 1) % 64
      omega
    · rw [hput]
      show hashBlocks s.hash _ = _
      simp

/-- Absorbing a list of bytes keeps the invariant and the hash of the pending message. -/
theorem SHA1.foldl_updateByte_spec (data : List Byte) :
    ∀ (s : SHA1), s.wf → ∀ tail : List Byte,
      (data.foldl SHA1.updateByte s).wf ∧
      (data.foldl SHA1.updateByte s).total_len = s.total_len ∧
      (data.foldl SHA1.updateByte s).block_len = (s.block_len + data.length) % 64 ∧
      hashBlocks (data.foldl SHA1.updateByte s).hash
          ((data.foldl SHA1.updateByte s).pending ++ tail)
        = hashBlocks s.hash (s.pending ++ data ++ tail) := by
  induction data with
  | nil =>
    intro s hs tail
    refine ⟨hs, rfl, ?_, by simp⟩
    have := hs.2
    simp only [List.foldl_nil, List.length_nil, Nat.add_zero]
    omega
  | cons v rest ih =>
    intro s hs tail
    obtain ⟨h1, h2, h3, h4⟩ := s.updateByte_spec v hs (rest ++ tail)
    obtain ⟨g1, g2, g3, g4⟩ := ih (s.updateByte v) h1 tail
    simp only [List.foldl_cons]
    refine ⟨g1, g2.trans h2, ?_, ?_⟩
    · rw [g3, h3, List.length_cons]; omega
    · rw [g4, List.append_assoc, h4]
      simp


theorem beBytes_length (i : Nat) : ∀ n, (beBytes i n).length = i := by
  induction i with
  | zero => intro n; rfl
  | succ i ih => intro n; simp [beBytes, ih]

theorem beBytes_eight (n : Nat) : beBytes 8 n = be64 n := by
  have hand : ∀ x : Nat, x &&& 0xFF = x % 256 := fun x => Nat.and_pow_two_sub_one_eq_mod x 8
  simp only [beBytes, be64, hand, Nat.shiftRight_eq_div_pow, Nat.div_div_eq_div_mul]
  simp [List.range_succ]

theorem storeLen_spec (i : Nat) : ∀ (block : List Byte) (n : Nat), 56 + i ≤ block.length →
    storeLen i block n = block.take 56 ++ beBytes i n ++ block.drop (56 + i) := by
  induction i with
  | zero =>
    intro block n _
    simp [storeLen, beBytes]
  | succ i ih =>
    intro block n h
    rw [storeLen, ih _ _ (by rw [List.length_set]; omega)]
    rw [List.set_eq_take_append_cons_drop, if_pos (by omega)]
    have h1 : (List.take (56 + i) block).length = 56 + i := by
      rw [List.length_take]; omega
    rw [List.drop_left' h1, List.take_append_of_le_length (by omega), List.take_take]
    simp [beBytes, Nat.add_assoc]

theorem storeLen_eight (block : List Byte) (n : Nat) (h : block.length = 64) :
    storeLen 8 block n = block.take 56 ++ be64 n := by
  rw [storeLen_spec 8 block n (by omega), beBytes_eight]
  have : List.drop (56 + 8) block = [] := List.drop_eq_nil_of_le (by omega)
  rw [this, List.append_nil]

theorem SHA1.zeroFill_spec (limit : Nat) (fuel : Nat) :
    ∀ s : SHA1, limit ≤ s.block.length → s.block_len + fuel = limit →
      SHA1.zeroFill limit fuel s =
        { s with
          block := s.block.take s.block_len ++ List.replicate fuel 0 ++ s.block.drop limit
          block_len := limit } := by
  induction fuel with
  | zero =>
    intro s _ h2
    simp only [Nat.add_zero] at h2
    cases s
    simp_all [SHA1.zeroFill]
  | succ fuel ih =>
    intro s h1 h2
    have hlt : s.block_len < limit := by omega
    rw [SHA1.zeroFill, if_pos hlt, ih (s.put 0) (by rw [SHA1.put_block_length]; exact h1)
      (by show s.block_len + 1 + fuel = limit; omega)]
    have e1 : (s.put 0).block_len = s.block_len + 1 := rfl
    have e2 : (s.put 0).block = s.block.set s.block_len 0 := rfl
    have e3 : (s.put 0).hash = s.hash := rfl
    have e4 : (s.put 0).total_len = s.total_len := rfl
    rw [e1, e2, e3, e4, take_set_succ _ _ _ (by omega), List.drop_set, if_pos hlt]
    simp [List.replicate_succ]

theorem SHA1.zeroFill_fields (limit fuel : Nat) (s : SHA1) (h1 : limit ≤ s.block.length)
    (h2 : s.block_len + fuel = limit) :
    (SHA1.zeroFill limit fuel s).hash = s.hash ∧
    (SHA1.zeroFill limit fuel s).total_len = s.total_len ∧
    (SHA1.zeroFill limit fuel s).block
      = s.pending ++ List.replicate fuel 0 ++ s.block.drop limit := by
  rw [SHA1.zeroFill_spec limit fuel s h1 h2]
  exact ⟨rfl, rfl, rfl⟩

/-- The last stage of `finalize`: zero bytes up to position 56, the length, the last block. -/
theorem SHA1.lastBlock (t : SHA1) (n : Nat) (h64 : t.block.length = 64)
    (hle : t.block_len ≤ 56) :
    compress (SHA1.zeroFill 56 (56 - t.block_len) t).hash
        (storeLen 8 (SHA1.zeroFill 56 (56 - t.block_len) t).block n)
      = compress t.hash (t.pending ++ List.replicate (56 - t.block_len) 0 ++ be64 n) ∧
    (SHA1.zeroFill 56 (56 - t.block_len) t).total_len = t.total_len := by
  obtain ⟨e1, e2, e3⟩ := SHA1.zeroFill_fields 56 (56 - t.block_len) t (by omega) (by omega)
  have hpl : t.pending.length = t.block_len := t.pending_length (by omega)
  have hl : (t.pending ++ List.replicate (56 - t.block_len) 0).length = 56 := by
    rw [List.length_append, hpl, List.length_replicate]; omega
  refine ⟨?_, e2⟩
  rw [e1, e3, storeLen_eight _ n (by
    rw [List.length_append, hl, List.length_drop]; omega), List.take_left' hl]

theorem SHA1.finalState_unfold (s t : SHA1)
    (ht : t = (if (s.put 0x80).block_len > 56 then
            { (SHA1.zeroFill 64 (64 - (s.put 0x80).block_len) (s.put 0x80)).process_block with
              block_len := 0 } else s.put 0x80)) :
    s.finalState.hash =
      compress (SHA1.zeroFill 56 (56 - t.block_len) t).hash
        (storeLen 8 (SHA1.zeroFill 56 (56 - t.block_len) t).block
          (((SHA1.zeroFill 56 (56 - t.block_len) t).total_len * 8) % 2 ^ 64)) := by
  subst ht
  dsimp only [SHA1.finalState, SHA1.process_block]

/-- The hash words after `finalize` has padded and processed the pending bytes. -/
theorem SHA1.finalState_hash (s : SHA1) (hs : s.wf) :
    s.finalState.hash = hashBlocks s.hash
      (s.pending ++ [0x80] ++ List.replicate (padZeros s.block_len) 0
        ++ be64 ((s.total_len * 8) % 2 ^ 64)) := by
  obtain ⟨h64, hlt⟩ := hs
  have hput : (s.put 0x80).pending = s.pending ++ [0x80] := s.put_pending _ (by omega)
  have hlen : (s.put 0x80).block.length = 64 := by rw [s.put_block_length, h64]
  have hbl : (s.put 0x80).block_len = s.block_len + 1 := rfl
  have hpl : s.pending.length = s.block_len := s.pending_length (by omega)
  have hbe : ∀ n, (be64 n).length = 8 := fun n => by simp [be64]
  by_cases hbig : (s.put 0x80).block_len > 56
  · rw [SHA1.finalState_unfold s _ (if_pos hbig).symm]
    obtain ⟨e1, e2, e3⟩ := SHA1.zeroFill_fields 64 (64 - (s.put 0x80).block_len) (s.put 0x80)
      (by omega) (by omega)
    have hd : List.drop 64 (s.put 0x80).block = [] := List.drop_eq_nil_of_le (by omega)
    rw [hd, List.append_nil, hput] at e3
    generalize hz : SHA1.zeroFill 64 (64 - (s.put 0x80).block_len) (s.put 0x80) = z at *
    have hB1 : z.block.length = 64 := by
      rw [e3, List.length_append, List.length_append, hpl, List.length_replicate, hbl]
      simp only [List.length_singleton]
      omega
    obtain ⟨f1, f2⟩ := SHA1.lastBlock { z.process_block with block_len := 0 }
      (({ z.process_block with block_len := 0 } : SHA1).total_len * 8 % 2 ^ 64) hB1
      (Nat.zero_le _)
    rw [f2, f1]
    show compress (compress z.hash z.block)
        (List.take 0 z.block ++ List.replicate (56 - 0) 0 ++ be64 (z.total_len * 8 % 2 ^ 64)) = _
    have hpz : padZeros s.block_len = (64 - (s.put 0x80).block_len) + 56 := by
      unfold padZeros; omega
    rw [hpz, List.replicate_add, ← List.append_assoc, ← e3]
    have e : z.block ++ List.replicate 56 (0 : Byte) ++ be64 (s.total_len * 8 % 2 ^ 64)
        = z.block ++ ((List.replicate 56 0 ++ be64 (s.total_len * 8 % 2 ^ 64)) ++ []) := by
      simp
    rw [e, hashBlocks_append64 _ _ _ hB1, hashBlocks_append64 _ _ _ (by
      rw [List.length_append, hbe, List.length_replicate]), hashBlocks_short _ _ (by simp),
      e1, e2]
    rfl
  · rw [SHA1.finalState_unfold s _ (if_neg hbig).symm]
    obtain ⟨f1, f2⟩ := SHA1.lastBlock (s.put 0x80) ((s.put 0x80).total_len * 8 % 2 ^ 64) hlen
      (by omega)
    rw [f2, f1, hput]
    have hpz : padZeros s.block_len = 56 - (s.put 0x80).block_len := by
      unfold padZeros; omega
    have e : s.pending ++ [0x80] ++ List.replicate (padZeros s.block_len) 0
          ++ be64 (s.total_len * 8 % 2 ^ 64)
        = (s.pending ++ [0x80] ++ List.replicate (padZeros s.block_len) 0
          ++ be64 (s.total_len * 8 % 2 ^ 64)) ++ [] := by simp
    rw [e, hashBlocks_append64 _ _ _ (by
      rw [List.length_append, hbe, List.length_append, List.length_append, hpl,
        List.length_replicate, hpz, hbl]
      simp only [List.length_singleton]
      omega), hashBlocks_short _ _ (by simp), hpz]
    rfl

theorem SHA1.new_wf : SHA1.new.wf := by
  constructor
  · simp [SHA1.new]
  · show 0 < 64
    omega

theorem padZeros_mod (n : Nat) : padZeros (n % 64) = padZeros n := by
  unfold padZeros; omega

/-- The hash words at the end of `finalize` after one `update` on a fresh state. -/
theorem SHA1.update_finalState_hash (m : List Byte) :
    (SHA1.new.update m).finalState.hash
      = hashBlocks initHash (m ++ [0x80] ++ List.replicate (padZeros m.length) 0
          ++ be64 ((m.length % 2 ^ 64 * 8) % 2 ^ 64)) := by
  obtain ⟨g1, g2, g3, g4⟩ := SHA1.foldl_updateByte_spec m SHA1.new SHA1.new_wf
    ([0x80] ++ List.replicate (padZeros m.length) 0 ++ be64 ((m.length % 2 ^ 64 * 8) % 2 ^ 64))
  have hwf : (SHA1.new.update m).wf := g1
  rw [SHA1.finalState_hash _ hwf]
  have e1 : (SHA1.new.update m).hash = (m.foldl SHA1.updateByte SHA1.new).hash := rfl
  have e2 : (SHA1.new.update m).pending = (m.foldl SHA1.updateByte SHA1.new).pending := rfl
  have e3 : (SHA1.new.update m).block_len = (m.foldl SHA1.updateByte SHA1.new).block_len := rfl
  have e4 : (SHA1.new.update m).total_len = m.length % 2 ^ 64 := by
    show ((m.foldl SHA1.updateByte SHA1.new).total_len + m.length) % 2 ^ 64 = _
    rw [g2]
    show (0 + m.length) % 2 ^ 64 = _
    rw [Nat.zero_add]
  have e5 : SHA1.new.block_len = 0 := rfl
  have e6 : SHA1.new.pending = [] := rfl
  have e7 : SHA1.new.hash = initHash := rfl
  rw [e1, e2, e3, e4, g3, e5, Nat.zero_add, padZeros_mod]
  simp only [List.append_assoc] at g4 ⊢
  rw [g4, e6, e7]
  rfl

theorem be64_length (n : Nat) : (be64 n).length = 8 := by simp [be64]

theorem pad_length (m : List Byte) : (pad m).length = m.length + 1 + padZeros m.length + 8 := by
  simp only [pad, List.length_append, be64_length, List.length_replicate, List.length_singleton]

/-- C2: for every byte string `m` shorter than `2^61`, `update(m)` followed by `finalize()`
on a fresh state returns the hex rendering of the fold of `process_block`, started at the
five initial constants, over the consecutive 64-byte blocks of
`pad m = m ++ [0x80] ++ k zero bytes ++ be64 (8 * |m|)`, where `k = padZeros |m|` is the
least number with `|m| + 1 + k` congruent to 56 modulo 64, and `|pad m|` is the least
multiple of 64 that is at least `|m| + 9`. -/
theorem finalize_eq_fold_padded_blocks (m : List Byte) (hm : m.length < 2 ^ 61) :
    (SHA1.new.update m).finalize = toHex ((blocksOf (pad m)).foldl compress initHash)
    ∧ pad m = m ++ [0x80] ++ List.replicate (padZeros m.length) 0 ++ be64 (8 * m.length)
    ∧ (m.length + 1 + padZeros m.length) % 64 = 56
    ∧ (∀ j, j < padZeros m.length → (m.length + 1 + j) % 64 ≠ 56)
    ∧ (pad m).length % 64 = 0 ∧ m.length + 9 ≤ (pad m).length
    ∧ (∀ n, n % 64 = 0 → m.length + 9 ≤ n → (pad m).length ≤ n) := by
  refine ⟨?_, rfl, ?_, ?_, ?_, ?_, ?_⟩
  · show toHex (SHA1.new.update m).finalState.hash = _
    rw [SHA1.update_finalState_hash]
    have e : (m.length % 2 ^ 64 * 8) % 2 ^ 64 = 8 * m.length := by omega
    rw [e]
    rfl
  · unfold padZeros; omega
  · intro j hj
    unfold padZeros at hj; omega
  · rw [pad_length]; unfold padZeros; omega
  · rw [pad_length]; omega
  · intro n h1 h2
    rw [pad_length]; unfold padZeros; omega

theorem finalize_eq_fold_padded_blocks_witness :
    (str "abc").length < 2 ^ 61 ∧
    (SHA1.new.update (str "abc")).finalize
      = toHex ((blocksOf (pad (str "abc"))).foldl compress initHash) :=
  ⟨by decide, (finalize_eq_fold_padded_blocks (str "abc") (by decide)).1⟩

/-- C1: the one-shot digest matches the published SHA-1 test vectors for the empty
string and for "abc". -/
theorem sha1_test_vectors :
    sha1 (str "") = str "da39a3ee5e6b4b0d3255bfef95601890afd80709" ∧
    sha1 (str "abc") = str "a9993e364706816aba3e25717850c26c9cd0d89d" := by
  decide

/-! ## Ingestion in several calls -/

theorem SHA1.updateByte_total_len (s : SHA1) (v : Byte) (t : Nat) :
    SHA1.updateByte { s with total_len := t } v = { s.updateByte v with total_len := t } := by
  unfold SHA1.updateByte SHA1.put SHA1.process_block
  dsimp only
  split <;> rfl

theorem SHA1.foldl_updateByte_total_len (data : List Byte) : ∀ (s : SHA1) (t : Nat),
    data.foldl SHA1.updateByte { s with total_len := t }
      = { data.foldl SHA1.updateByte s with total_len := t } := by
  induction data with
  | nil => intro s t; rfl
  | cons v rest ih =>
    intro s t
    simp only [List.foldl_cons]
    rw [SHA1.updateByte_total_len, ih]

theorem SHA1.updateByte_keeps_total_len (s : SHA1) (v : Byte) :
    (s.updateByte v).total_len = s.total_len := by
  unfold SHA1.updateByte SHA1.put SHA1.process_block
  dsimp only
  split <;> rfl

theorem SHA1.foldl_updateByte_keeps_total_len (data : List Byte) : ∀ (s : SHA1),
    (data.foldl SHA1.updateByte s).total_len = s.total_len := by
  induction data with
  | nil => intro s; rfl
  | cons v rest ih =>
    intro s
    simp only [List.foldl_cons]
    rw [ih, SHA1.updateByte_keeps_total_len]

/-- Two `update` calls in a row are one `update` call on the concatenation. -/
theorem SHA1.update_append (s : SHA1) (a b : List Byte) :
    (s.update a).update b = s.update (a ++ b) := by
  unfold SHA1.update
  dsimp only
  rw [SHA1.foldl_updateByte_total_len, List.foldl_append]
  have h := SHA1.foldl_updateByte_keeps_total_len a s
  have h2 := SHA1.foldl_updateByte_keeps_total_len b (a.foldl SHA1.updateByte s)
  simp only [List.length_append, h, h2]
  congr 1
  omega

theorem SHA1.foldl_update (chunks : List (List Byte)) : ∀ (s : SHA1) (a : List Byte),
    chunks.foldl SHA1.update (s.update a) = s.update (a ++ chunks.flatten) := by
  induction chunks with
  | nil => intro s a; simp
  | cons c rest ih =>
    intro s a
    simp only [List.foldl_cons, List.flatten_cons]
    rw [SHA1.update_append, ih, List.append_assoc]

/-- C3: ingestion accumulates across calls. `update(a)`, `update(b)`, `finalize()` on a
fresh state returns `sha1(a ++ b)`, and for any sequence of chunks the digest is that of
their concatenation, whatever the split. -/
theorem update_accumulates :
    (∀ a b : List Byte, ((SHA1.new.update a).update b).finalize = sha1 (a ++ b)) ∧
    (∀ chunks : List (List Byte),
      (chunks.foldl SHA1.update SHA1.new).finalize = sha1 chunks.flatten) := by
  constructor
  · intro a b
    rw [SHA1.update_append]
    rfl
  · intro chunks
    have h : SHA1.new = SHA1.new.update [] := by decide
    rw [h, SHA1.foldl_update, List.nil_append]
    rfl

/-! ## Numerals -/

theorem hexDigit_mem_hexChars : ∀ d, d < 16 → hexDigit d ∈ hexChars := by decide

theorem digitValue_hexDigit : ∀ d, d < 16 → digitValue (hexDigit d) = d := by decide

theorem hexDigit_decimal : ∀ d, d < 10 → 48 ≤ (hexDigit d).val ∧ (hexDigit d).val ≤ 57 := by
  decide

theorem numeral_forall (base : Nat) (hb : 0 < base) (P : Byte → Prop)
    (hP : ∀ d, d < base → P (hexDigit d)) :
    ∀ (fuel n : Nat) (acc : Str), (∀ c ∈ acc, P c) → ∀ c ∈ numeral base fuel n acc, P c := by
  intro fuel
  induction fuel with
  | zero => intro n acc hacc c hc; exact hacc c hc
  | succ fuel ih =>
    intro n acc hacc c hc
    have hd : P (hexDigit (n % base)) := hP _ (Nat.mod_lt _ hb)
    have hacc2 : ∀ c ∈ hexDigit (n % base) :: acc, P c := by
      intro c hc
      rcases List.mem_cons.mp hc with h | h
      · rw [h]; exact hd
      · exact hacc c h
    rw [numeral] at hc
    split at hc
    · exact hacc2 c hc
    · exact ih _ _ hacc2 c hc

theorem numeral_length_le (base : Nat) (hb : 1 < base) :
    ∀ (fuel k n : Nat) (acc : Str), n < base ^ (k + 1) →
      (numeral base fuel n acc).length ≤ k + 1 + acc.length := by
  intro fuel
  induction fuel with
  | zero => intro k n acc _; simp [numeral]
  | succ fuel ih =>
    intro k n acc hn
    rw [numeral]
    split
    · simp only [List.length_cons]; omega
    · rename_i hne
      cases k with
      | zero =>
        exfalso; apply hne
        rw [Nat.div_eq_zero_iff (by omega)]
        simpa using hn
      | succ k =>
        have h2 : n / base < base ^ (k + 1) := by
          rw [Nat.div_lt_iff_lt_mul (by omega)]
          calc n < base ^ (k + 1 + 1) := hn
            _ = base ^ (k + 1) * base := by rw [Nat.pow_succ]
        have := ih k (n / base) (hexDigit (n % base) :: acc) h2
        simp only [List.length_cons] at this
        omega

theorem numeral_length_pos (base : Nat) : ∀ (fuel n : Nat) (acc : Str),
    acc.length + 1 ≤ (numeral base (fuel + 1) n acc).length := by
  intro fuel
  induction fuel with
  | zero =>
    intro n acc
    rw [numeral]
    split <;> simp [numeral]
  | succ fuel ih =>
    intro n acc
    rw [numeral]
    split
    · simp
    · have := ih (n / base) (hexDigit (n % base) :: acc)
      simp only [List.length_cons] at this
      omega

theorem numeral_value (base : Nat) (hb : 1 < base) (hb16 : base ≤ 16) :
    ∀ (fuel n : Nat) (acc : Str), n < fuel →
      (numeral base fuel n acc).foldl (fun a c => base * a + digitValue c) 0
        = acc.foldl (fun a c => base * a + digitValue c) n := by
  intro fuel
  induction fuel with
  | zero => intro n acc h; omega
  | succ fuel ih =>
    intro n acc h
    have hd : digitValue (hexDigit (n % base)) = n % base :=
      digitValue_hexDigit _ (lt_of_lt_of_le (Nat.mod_lt _ (by omega)) hb16)
    rw [numeral]
    split
    · rename_i h0
      have hlt : n < base := (Nat.div_eq_zero_iff (by omega)).mp h0
      rw [Nat.mod_eq_of_lt hlt] at hd
      simp only [List.foldl_cons, hd, Nat.mul_zero, Nat.zero_add, Nat.mod_eq_of_lt hlt]
    · rename_i hne
      have hge : base ≤ n := by
        by_contra hc
        exact hne (Nat.div_eq_of_lt (by omega))
      have hlt : n / base < fuel := by
        have : n / base < n := Nat.div_lt_self (by omega) hb
        omega
      rw [ih _ _ hlt]
      simp only [List.foldl_cons, hd]
      rw [Nat.div_add_mod]

theorem padLeft_eq (fill : Byte) (width : Nat) : ∀ (fuel : Nat) (s : Str),
    fuel = width - s.length → padLeft fill width fuel s = List.replicate fuel fill ++ s := by
  intro fuel
  induction fuel with
  | zero => intro s _; simp [padLeft]
  | succ fuel ih =>
    intro s h
    rw [padLeft, if_pos (by omega), ih _ (by simp only [List.length_cons]; omega)]
    rw [List.replicate_succ']
    simp

theorem hex8_eq (x : Nat) :
    hex8 x = List.replicate (8 - (numeral 16 (x + 1) x []).length) 48 ++ numeral 16 (x + 1) x [] :=
  padLeft_eq 48 8 _ _ rfl

theorem hex8_length (x : Nat) (hx : x < 2 ^ 32) : (hex8 x).length = 8 := by
  have h := numeral_length_le 16 (by omega) (x + 1) 7 x [] (by
    calc x < 2 ^ 32 := hx
      _ = 16 ^ (7 + 1) := by norm_num)
  rw [hex8_eq, List.length_append, List.length_replicate]
  simp only [List.length_nil] at h
  omega

theorem hex8_chars (x : Nat) : ∀ c ∈ hex8 x, c ∈ hexChars := by
  intro c hc
  rw [hex8_eq] at hc
  rcases List.mem_append.mp hc with h | h
  · rw [(List.mem_replicate.mp h).2]
    decide
  · exact numeral_forall 16 (by omega) (fun c => c ∈ hexChars) hexDigit_mem_hexChars
      _ _ [] (by simp) c h

theorem numeralValue_replicate_zero (base : Nat) (k : Nat) (s : Str) :
    numeralValue base (List.replicate k 48 ++ s) = numeralValue base s := by
  unfold numeralValue
  rw [List.foldl_append]
  congr 1
  induction k with
  | zero => rfl
  | succ k ih =>
    rw [List.replicate_succ, List.foldl_cons]
    have : digitValue 48 = 0 := by decide
    rw [this]
    simpa using ih

theorem hex8_value (x : Nat) : numeralValue 16 (hex8 x) = x := by
  rw [hex8_eq, numeralValue_replicate_zero]
  unfold numeralValue
  rw [numeral_value 16 (by omega) (by omega) _ _ _ (Nat.lt_succ_self x)]
  rfl

theorem compress_words (h : List Nat) (b : List Byte) :
    ∃ w0 w1 w2 w3 w4 : Nat, compress h b = [w0, w1, w2, w3, w4] ∧
      w0 < 2 ^ 32 ∧ w1 < 2 ^ 32 ∧ w2 < 2 ^ 32 ∧ w3 < 2 ^ 32 ∧ w4 < 2 ^ 32 := by
  refine ⟨_, _, _, _, _, rfl, ?_, ?_, ?_, ?_, ?_⟩ <;> exact Nat.mod_lt _ (by norm_num)

theorem SHA1.finalState_is_compress (s : SHA1) :
    ∃ (h : List Nat) (b : List Byte), s.finalState.hash = compress h b := by
  unfold SHA1.finalState SHA1.process_block
  exact ⟨_, _, rfl⟩

theorem toHex_five (w0 w1 w2 w3 w4 : Nat) :
    toHex [w0, w1, w2, w3, w4] = hex8 w0 ++ hex8 w1 ++ hex8 w2 ++ hex8 w3 ++ hex8 w4 := by
  simp [toHex, List.range_succ]

/-- C4: for every input string `s`, `sha1 s` has exactly 40 characters, all of them
lowercase hexadecimal digits; it is the concatenation, for the five 32-bit state words,
of exactly 8 zero-padded hex digits each, which read back as the word. -/
theorem sha1_forty_hex_digits (s : Str) :
    (sha1 s).length = 40 ∧ (∀ c ∈ sha1 s, c ∈ hexChars) ∧
    ∃ w0 w1 w2 w3 w4 : Nat,
      (SHA1.new.update s).finalState.hash = [w0, w1, w2, w3, w4] ∧
      w0 < 2 ^ 32 ∧ w1 < 2 ^ 32 ∧ w2 < 2 ^ 32 ∧ w3 < 2 ^ 32 ∧ w4 < 2 ^ 32 ∧
      sha1 s = hex8 w0 ++ hex8 w1 ++ hex8 w2 ++ hex8 w3 ++ hex8 w4 ∧
      ∀ w ∈ [w0, w1, w2, w3, w4], (hex8 w).length = 8 ∧ numeralValue 16 (hex8 w) = w := by
  obtain ⟨h, b, hfs⟩ := SHA1.finalState_is_compress (SHA1.new.update s)
  obtain ⟨w0, w1, w2, w3, w4, hw, h0, h1, h2, h3, h4⟩ := compress_words h b
  have hs : sha1 s = hex8 w0 ++ hex8 w1 ++ hex8 w2 ++ hex8 w3 ++ hex8 w4 := by
    show toHex (SHA1.new.update s).finalState.hash = _
    rw [hfs, hw, toHex_five]
  refine ⟨?_, ?_, w0, w1, w2, w3, w4, hfs.trans hw, h0, h1, h2, h3, h4, hs, ?_⟩
  · rw [hs]
    simp only [List.length_append, hex8_length _ h0, hex8_length _ h1, hex8_length _ h2,
      hex8_length _ h3, hex8_length _ h4]
  · intro c hc
    rw [hs] at hc
    simp only [List.mem_append] at hc
    rcases hc with (((hc | hc) | hc) | hc) | hc <;> exact hex8_chars _ c hc
  · intro w hw
    simp only [List.mem_cons, List.mem_singleton, List.not_mem_nil, or_false] at hw
    rcases hw with rfl | rfl | rfl | rfl | rfl
    · exact ⟨hex8_length _ h0, hex8_value _⟩
    · exact ⟨hex8_length _ h1, hex8_value _⟩
    · exact ⟨hex8_length _ h2, hex8_value _⟩
    · exact ⟨hex8_length _ h3, hex8_value _⟩
    · exact ⟨hex8_length _ h4, hex8_value _⟩

/-! ## Maps -/

theorem mapCount_ne_zero_iff (m : SMap) (k : Str) : mapCount m k ≠ 0 ↔ k ∈ keys m := by
  unfold mapCount keys
  by_cases h : (m.any fun e => decide (e.1 = k)) = true
  · simp only [h, if_true]
    simp only [List.any_eq_true, decide_eq_true_eq] at h
    obtain ⟨e, he, hk⟩ := h
    simp only [ne_eq, one_ne_zero, not_false_eq_true, List.mem_map, true_iff]
    exact ⟨e, he, hk⟩
  · simp only [h]
    simp only [List.any_eq_true, decide_eq_true_eq, not_exists, not_and] at h
    simp only [Bool.false_eq_true, if_false, ne_eq, not_true_eq_false, List.mem_map, false_iff,
      not_exists, not_and]
    exact h

theorem mapFind_eq_none_iff (m : SMap) (k : Str) : mapFind m k = none ↔ k ∉ keys m := by
  induction m with
  | nil => simp [mapFind, keys]
  | cons e rest ih =>
    unfold mapFind
    by_cases h : e.1 = k
    · simp [h, keys]
    · simp only [h, if_false, ih, keys, List.map_cons, List.mem_cons, not_or]
      constructor
      · intro h2; exact ⟨fun hk => h hk.symm, h2⟩
      · intro h2; exact h2.2

theorem mapAssign_absent (m : SMap) (k v : Str) (h : k ∉ keys m) :
    mapAssign m k v = m ++ [(k, v)] := by
  induction m with
  | nil => rfl
  | cons e rest ih =>
    simp only [keys, List.map_cons, List.mem_cons, not_or] at h
    unfold mapAssign
    rw [if_neg (fun hk => h.1 hk.symm), ih h.2]
    rfl

theorem mapFind_append_single (m : SMap) (k v k' : Str) (h : k ∉ keys m) :
    mapFind (m ++ [(k, v)]) k' = if k' = k then some v else mapFind m k' := by
  induction m with
  | nil =>
    simp only [List.nil_append, mapFind]
    by_cases hk : k = k'
    · simp [hk]
    · have hk2 : ¬ k' = k := fun h => hk h.symm
      simp [hk, hk2]
  | cons e rest ih =>
    simp only [keys, List.map_cons, List.mem_cons, not_or] at h
    simp only [List.cons_append, mapFind]
    by_cases he : e.1 = k'
    · have : ¬ k' = k := fun hk => h.1 (hk ▸ he.symm)
      simp [he, this]
    · simp only [he, if_false]
      exact ih h.2

/-! ## The registry function `check` -/

theorem check_fst (p : Str) (st : State) :
    (check p st).1 = true ↔ (sha1 p ∈ keys st.hashes ∧ sha1 p ∉ keys st.cracked) := by
  unfold check
  dsimp only
  rw [← mapCount_ne_zero_iff, ← mapCount_ne_zero_iff]
  split
  · rename_i h; simpa using h
  · rename_i h; simpa using h

theorem check_hit (p : Str) (st : State) (h : (check p st).1 = true) :
    (check p st).2 =
      { st with
        attempts := st.attempts + 1
        tested := st.tested ++ [p]
        cracked := st.cracked ++ [(sha1 p, p)]
        events := st.events ++ [(mapGet st.hashes (sha1 p), p)] } := by
  have hk := (check_fst p st).mp h
  unfold check at h ⊢
  dsimp only at h ⊢
  split
  · rw [mapAssign_absent _ _ _ hk.2]
  · rename_i hn
    rw [if_neg hn] at h
    exact absurd h (by simp)

theorem check_miss (p : Str) (st : State) (h : (check p st).1 = false) :
    (check p st).2 = { st with attempts := st.attempts + 1, tested := st.tested ++ [p] } := by
  unfold check at h ⊢
  dsimp only at h ⊢
  split
  · rename_i hn
    rw [if_pos hn] at h
    exact absurd h (by simp)
  · rfl

theorem check_attempts (p : Str) (st : State) :
    (check p st).2.attempts = st.attempts + 1 := by
  cases h : (check p st).1
  · rw [check_miss p st h]
  · rw [check_hit p st h]

theorem check_hashes (p : Str) (st : State) : (check p st).2.hashes = st.hashes := by
  cases h : (check p st).1
  · rw [check_miss p st h]
  · rw [check_hit p st h]

/-- C5: `check p` returns true exactly when `sha1 p` is a key of the target map and not
yet a key of the cracked map; then the cracked map is the old one extended with exactly
the entry `sha1 p -> p`; when it returns false the cracked map is unchanged; in every
case the target map is unchanged and the attempt counter grows by exactly one. -/
theorem check_contract (st : State) (p : Str) :
    ((check p st).1 = true ↔ (sha1 p ∈ keys st.hashes ∧ sha1 p ∉ keys st.cracked)) ∧
    ((check p st).1 = true →
      (check p st).2.cracked = st.cracked ++ [(sha1 p, p)] ∧
      mapSize (check p st).2.cracked = mapSize st.cracked + 1 ∧
      ∀ k, mapFind (check p st).2.cracked k
        = if k = sha1 p then some p else mapFind st.cracked k) ∧
    ((check p st).1 = false → (check p st).2.cracked = st.cracked) ∧
    (check p st).2.hashes = st.hashes ∧
    (check p st).2.attempts = st.attempts + 1 := by
  refine ⟨check_fst p st, ?_, ?_, ?_, ?_⟩
  · intro h
    have hk := (check_fst p st).mp h
    rw [check_hit p st h]
    refine ⟨rfl, ?_, ?_⟩
    · simp [mapSize]
    · intro k
      exact mapFind_append_single _ _ _ _ hk.2
  · intro h
    rw [check_miss p st h]
  · exact check_hashes p st
  · exact check_attempts p st

/-! ## What later calls of `check` preserve -/

theorem check_keeps_found (q : Str) (st : State) (k v : Str)
    (h : mapFind st.cracked k = some v) : mapFind (check q st).2.cracked k = some v := by
  cases hq : (check q st).1
  · rw [check_miss q st hq]; exact h
  · have hk := (check_fst q st).mp hq
    rw [check_hit q st hq]
    show mapFind (st.cracked ++ [(sha1 q, q)]) k = some v
    rw [mapFind_append_single _ _ _ _ hk.2]
    have : k ≠ sha1 q := by
      intro he
      rw [he, (mapFind_eq_none_iff _ _).mpr hk.2] at h
      exact absurd h (by simp)
    rw [if_neg this, h]

theorem checkAll_keeps_found (qs : List Str) : ∀ (st : State) (k v : Str),
    mapFind st.cracked k = some v → mapFind (checkAll qs st).cracked k = some v := by
  induction qs with
  | nil => intro st k v h; exact h
  | cons q rest ih =>
    intro st k v h
    exact ih _ k v (check_keeps_found q st k v h)

/-- C6: `check` is idempotent on a successful match. If `check p` returns true, then
`check p` called again, immediately or after any further calls of `check`, returns
false and leaves the cracked map unchanged, with `p` still recorded for `sha1 p`. -/
theorem check_idempotent (st : State) (p : Str) (qs : List Str)
    (h : (check p st).1 = true) :
    (check p (checkAll qs (check p st).2)).1 = false ∧
    (check p (checkAll qs (check p st).2)).2.cracked = (checkAll qs (check p st).2).cracked ∧
    mapFind (checkAll qs (check p st).2).cracked (sha1 p) = some p ∧
    mapFind (check p (checkAll qs (check p st).2)).2.cracked (sha1 p) = some p := by
  have hk := (check_fst p st).mp h
  have h1 : mapFind (check p st).2.cracked (sha1 p) = some p := by
    rw [check_hit p st h]
    show mapFind (st.cracked ++ [(sha1 p, p)]) (sha1 p) = some p
    rw [mapFind_append_single _ _ _ _ hk.2, if_pos rfl]
  have h2 := checkAll_keeps_found qs _ _ _ h1
  have h3 : (check p (checkAll qs (check p st).2)).1 = false := by
    cases hc : (check p (checkAll qs (check p st).2)).1
    · rfl
    · have := ((check_fst p _).mp hc).2
      rw [← mapFind_eq_none_iff, h2] at this
      exact absurd this (by simp)
  refine ⟨h3, ?_, h2, ?_⟩
  · rw [check_miss _ _ h3]
  · rw [check_miss _ _ h3]; exact h2

theorem check_idempotent_witness :
    (check (str "0") (startState [(str "b6589fc6ab0dc82cf12099d1c2d40ab994e8410c", str "1")])).1
      = true ∧
    (check (str "0") (checkAll [str "1"]
      (check (str "0")
        (startState [(str "b6589fc6ab0dc82cf12099d1c2d40ab994e8410c", str "1")])).2)).1
      = false :=
  ⟨by decide, (check_idempotent _ (str "0") [str "1"] (by decide)).1⟩

/-- C7 (the code departs from the claim): with the single target `sha1("0")` and the
one-word dictionary `a`, the registry is complete after the first brute-force candidate,
yet attack 2 still hashes the dictionary word: the run ends with two attempts, not one.
Without a dictionary the run ends with one attempt. -/
theorem attempts_after_completion :
    complete (check (str "0")
      (startState (loadTargets [str "b6589fc6ab0dc82cf12099d1c2d40ab994e8410c"]))).2 = true ∧
    (main [str "b6589fc6ab0dc82cf12099d1c2d40ab994e8410c"] none).attempts = 1 ∧
    (main [str "b6589fc6ab0dc82cf12099d1c2d40ab994e8410c"] (some [str "a"])).tested
      = [str "0", str "a"] ∧
    (main [str "b6589fc6ab0dc82cf12099d1c2d40ab994e8410c"] (some [str "a"])).attempts = 2 := by
  decide

/-! ## Runs in which the registry never becomes complete -/

theorem checkAll_cons (c : Str) (cs : List Str) (st : State) :
    checkAll (c :: cs) st = checkAll cs (check c st).2 := rfl

theorem checkAll_append (a b : List Str) (st : State) :
    checkAll (a ++ b) st = checkAll b (checkAll a st) := by
  unfold checkAll; rw [List.foldl_append]

theorem neverComplete_append (a : List Str) : ∀ (b : List Str) (st : State),
    neverComplete (a ++ b) st = (neverComplete a st && neverComplete b (checkAll a st)) := by
  induction a with
  | nil => intro b st; simp [neverComplete, checkAll]
  | cons c cs ih =>
    intro b st
    rw [List.cons_append, neverComplete, neverComplete, ih, checkAll_cons, Bool.and_assoc]

theorem neverComplete_of_not_incomplete (cs : List Str) (st : State)
    (h : neverComplete cs st = true) (hc : ¬ incomplete st = true) : cs = [] := by
  cases cs with
  | nil => rfl
  | cons c cs =>
    simp only [neverComplete, Bool.and_eq_true] at h
    exact absurd h.1 hc

theorem check_tested (p : Str) (st : State) : (check p st).2.tested = st.tested ++ [p] := by
  cases h : (check p st).1
  · rw [check_miss p st h]
  · rw [check_hit p st h]


theorem checkAll_tested (cs : List Str) : ∀ st : State,
    (checkAll cs st).tested = st.tested ++ cs := by
  induction cs with
  | nil => intro st; simp [checkAll]
  | cons c cs ih =>
    intro st
    rw [checkAll_cons, ih, check_tested]; simp

theorem checkAll_attempts (cs : List Str) : ∀ st : State,
    (checkAll cs st).attempts = st.attempts + cs.length := by
  induction cs with
  | nil => intro st; simp [checkAll]
  | cons c cs ih =>
    intro st
    rw [checkAll_cons, ih, check_attempts, List.length_cons]; omega

/-! ## Attack 1 -/

theorem maxNum_eq (length : Nat) : maxNum length = 10 ^ length := by
  unfold maxNum
  induction length with
  | zero => rfl
  | succ n ih => rw [List.range_succ, List.foldl_append, ih]; rfl

theorem bruteInner_eq (length max_num : Nat) : ∀ (fuel num : Nat) (st : State),
    num + fuel = max_num →
    neverComplete ((List.range' num fuel).map (digitPassword length)) st = true →
    bruteInner length max_num fuel num st
      = checkAll ((List.range' num fuel).map (digitPassword length)) st := by
  intro fuel
  induction fuel with
  | zero => intro num st _ _; rfl
  | succ fuel ih =>
    intro num st hn h
    rw [List.range'_succ, List.map_cons] at h ⊢
    simp only [neverComplete, Bool.and_eq_true] at h
    rw [bruteInner, if_pos ⟨by omega, h.1⟩, checkAll_cons]
    exact ih (num + 1) _ (by omega) h.2

theorem digitGroup_ne_nil (L : Nat) : digitGroup L ≠ [] := by
  unfold digitGroup
  have : 0 < 10 ^ L := Nat.pow_pos (by omega)
  intro h
  have h2 := congrArg List.length h
  simp at h2

theorem bruteOuter_eq (M : Nat) : ∀ (fuel length : Nat) (st : State),
    length + fuel = M + 1 →
    neverComplete ((List.range' length fuel).flatMap digitGroup) st = true →
    bruteOuter M fuel length st = checkAll ((List.range' length fuel).flatMap digitGroup) st := by
  intro fuel
  induction fuel with
  | zero => intro length st _ _; rfl
  | succ fuel ih =>
    intro length st hn h
    rw [List.range'_succ, List.flatMap_cons] at h ⊢
    rw [neverComplete_append, Bool.and_eq_true] at h
    have hinc : incomplete st = true := by
      by_contra hc
      exact digitGroup_ne_nil length (neverComplete_of_not_incomplete _ _ h.1 hc)
    have hin : bruteInner length (maxNum length) (maxNum length) 0 st
        = checkAll (digitGroup length) st := by
      unfold digitGroup
      rw [List.range_eq_range', ← maxNum_eq]
      apply bruteInner_eq
      · omega
      · have := h.1
        unfold digitGroup at this
        rw [List.range_eq_range', ← maxNum_eq] at this
        exact this
    rw [bruteOuter, if_pos ⟨by omega, hinc⟩, hin, checkAll_append]
    exact ih (length + 1) _ (by omega) h.2

theorem attack1_eq (M : Nat) (st : State) (h : neverComplete (digitCandidates M) st = true) :
    attack1 M st = checkAll (digitCandidates M) st :=
  bruteOuter_eq M M 1 st (by omega) h

theorem to_string_length_le (L n : Nat) (h : n < 10 ^ (L + 1)) :
    (to_string n).length ≤ L + 1 :=
  numeral_length_le 10 (by omega) (n + 1) L n [] h

theorem digitPassword_eq (L n : Nat) :
    digitPassword L n = List.replicate (L - (to_string n).length) 48 ++ to_string n :=
  padLeft_eq 48 L _ _ rfl

theorem to_string_value (n : Nat) : numeralValue 10 (to_string n) = n := by
  unfold numeralValue to_string
  rw [numeral_value 10 (by omega) (by omega) _ _ _ (Nat.lt_succ_self n)]
  rfl

/-- The candidate for `L` and `n < 10^L` is the `L`-digit decimal numeral of `n`. -/
theorem digitPassword_spec (L n : Nat) (hL : 1 ≤ L) (hn : n < 10 ^ L) :
    (digitPassword L n).length = L ∧
    (∀ c ∈ digitPassword L n, 48 ≤ c.val ∧ c.val ≤ 57) ∧
    numeralValue 10 (digitPassword L n) = n := by
  obtain ⟨k, rfl⟩ : ∃ k, L = k + 1 := ⟨L - 1, by omega⟩
  have hlen := to_string_length_le k n hn
  refine ⟨?_, ?_, ?_⟩
  · rw [digitPassword_eq, List.length_append, List.length_replicate]; omega
  · intro c hc
    rw [digitPassword_eq] at hc
    rcases List.mem_append.mp hc with h | h
    · rw [(List.mem_replicate.mp h).2]; decide
    · exact numeral_forall 10 (by omega) (fun c => 48 ≤ c.val ∧ c.val ≤ 57) hexDigit_decimal
        _ _ [] (by simp) c h
  · rw [digitPassword_eq, numeralValue_replicate_zero, to_string_value]

theorem digitGroup_length (L : Nat) : (digitGroup L).length = 10 ^ L := by
  simp [digitGroup]

theorem mem_digitGroup_length (L : Nat) (hL : 1 ≤ L) (s : Str) (hs : s ∈ digitGroup L) :
    s.length = L := by
  unfold digitGroup at hs
  obtain ⟨n, hn, rfl⟩ := List.mem_map.mp hs
  exact (digitPassword_spec L n hL (List.mem_range.mp hn)).1

theorem digitGroup_nodup (L : Nat) (hL : 1 ≤ L) : (digitGroup L).Nodup := by
  unfold digitGroup
  apply List.Nodup.map_on _ (List.nodup_range _)
  intro x hx y hy hxy
  have h1 := (digitPassword_spec L x hL (List.mem_range.mp hx)).2.2
  have h2 := (digitPassword_spec L y hL (List.mem_range.mp hy)).2.2
  rw [← h1, ← h2, hxy]

theorem digitCandidates_nodup (M : Nat) : (digitCandidates M).Nodup := by
  unfold digitCandidates
  rw [List.nodup_flatMap]
  constructor
  · intro L hL
    exact digitGroup_nodup L (List.mem_range'_1.mp hL).1
  · apply List.Nodup.pairwise_of_forall_ne (List.nodup_range' 1 M)
    intro a ha b hb hab s hsa hsb
    have h1 := mem_digitGroup_length a (List.mem_range'_1.mp ha).1 s hsa
    have h2 := mem_digitGroup_length b (List.mem_range'_1.mp hb).1 s hsb
    exact hab (h1.symm.trans h2)

theorem digitCandidates_succ (M : Nat) :
    digitCandidates (M + 1) = digitCandidates M ++ digitGroup (M + 1) := by
  unfold digitCandidates
  rw [List.range'_concat, List.flatMap_append]
  simp [Nat.add_comm]

theorem digitCandidates_length (M : Nat) :
    (digitCandidates M).length = ∑ L ∈ Finset.Icc 1 M, 10 ^ L := by
  induction M with
  | zero => rfl
  | succ M ih =>
    rw [digitCandidates_succ, List.length_append, ih, digitGroup_length,
      Finset.sum_Icc_succ_top (by omega)]

/-- C8: when the registry never becomes complete, attack 1 with maximum length `M` tests
exactly the candidates of `digitCandidates M`, in order: for `L = 1..M`, for
`n = 0..10^L - 1` ascending, the string of exactly `L` decimal digits whose value is `n`.
No candidate occurs twice, their number is the sum of `10^L` for `L = 1..M`, and for
`M = 2` the sequence is "0", ..., "9", "00", "01", ..., "99", 110 candidates. The program
runs the attack with `M = 8`. -/
theorem digit_brute_force_enumeration (M : Nat) (st : State)
    (h : neverComplete (digitCandidates M) st = true) :
    attack1 M st = checkAll (digitCandidates M) st ∧
    (attack1 M st).tested = st.tested ++ digitCandidates M ∧
    (attack1 M st).attempts = st.attempts + ∑ L ∈ Finset.Icc 1 M, 10 ^ L ∧
    digitCandidates M
      = (List.range' 1 M).flatMap (fun L => (List.range (10 ^ L)).map (digitPassword L)) ∧
    (∀ L n, 1 ≤ L → n < 10 ^ L →
      (digitPassword L n).length = L ∧
      (∀ c ∈ digitPassword L n, 48 ≤ c.val ∧ c.val ≤ 57) ∧
      numeralValue 10 (digitPassword L n) = n) ∧
    (digitCandidates M).Nodup ∧
    (digitCandidates M).length = ∑ L ∈ Finset.Icc 1 M, 10 ^ L ∧
    digitCandidates 2 = List.map str
     ["0", "1", "2", "3", "4", "5", "6", "7", "8", "9",
      "00", "01", "02", "03", "04", "05", "06", "07", "08", "09",
      "10", "11", "12", "13", "14", "15", "16", "17", "18", "19",
      "20", "21", "22", "23", "24", "25", "26", "27", "28", "29",
      "30", "31", "32", "33", "34", "35", "36", "37", "38", "39",
      "40", "41", "42", "43", "44", "45", "46", "47", "48", "49",
      "50", "51", "52", "53", "54", "55", "56", "57", "58", "59",
      "60", "61", "62", "63", "64", "65", "66", "67", "68", "69",
      "70", "71", "72", "73", "74", "75", "76", "77", "78", "79",
      "80", "81", "82", "83", "84", "85", "86", "87", "88", "89",
      "90", "91", "92", "93", "94", "95", "96", "97", "98", "99"] ∧
    (digitCandidates 2).length = 110 ∧
    (∀ hashes : SMap, runAttacks hashes none = attack1 8 (startState hashes)) := by
  have e := attack1_eq M st h
  refine ⟨e, ?_, ?_, rfl, digitPassword_spec, digitCandidates_nodup M,
    digitCandidates_length M, by decide, by decide, fun _ => rfl⟩
  · rw [e, checkAll_tested]
  · rw [e, checkAll_attempts, digitCandidates_length]

theorem digit_brute_force_enumeration_witness :
    neverComplete (digitCandidates 1) (startState [(str "x", str "1")]) = true ∧
    (attack1 1 (startState [(str "x", str "1")])).tested = [] ++ digitCandidates 1 :=
  have h : neverComplete (digitCandidates 1) (startState [(str "x", str "1")]) = true := by
    decide
  ⟨h, (digit_brute_force_enumeration 1 _ h).2.1⟩

/-! ## Attack 3 -/

theorem pairInner_eq (wi : Str) : ∀ (rest : List Str) (st : State),
    neverComplete ((rest.map (fun wj => lower (wi ++ wj))).filter comboInRange) st = true →
    pairInner wi rest st
      = checkAll ((rest.map (fun wj => lower (wi ++ wj))).filter comboInRange) st := by
  intro rest
  induction rest with
  | nil => intro st _; rfl
  | cons wj rest ih =>
    intro st h
    by_cases hinc : incomplete st = true
    · rw [pairInner, if_pos hinc]
      rw [List.map_cons, List.filter_cons] at h ⊢
      by_cases hr : comboInRange (lower (wi ++ wj)) = true
      · rw [if_pos hr] at h ⊢
        have hr2 : (lower (wi ++ wj)).length ≥ 6 ∧ (lower (wi ++ wj)).length ≤ 28 := by
          simpa [comboInRange] using hr
        simp only [neverComplete, Bool.and_eq_true] at h
        dsimp only
        rw [if_pos hr2, checkAll_cons]
        exact ih _ h.2
      · rw [if_neg hr] at h ⊢
        have hr2 : ¬ ((lower (wi ++ wj)).length ≥ 6 ∧ (lower (wi ++ wj)).length ≤ 28) := by
          simpa [comboInRange] using hr
        dsimp only
        rw [if_neg hr2]
        exact ih _ h
    · rw [pairInner, if_neg hinc, neverComplete_of_not_incomplete _ _ h hinc]
      rfl

theorem pairOuter_eq (priority : List Str) : ∀ (rest : List Str) (st : State),
    neverComplete ((rest.flatMap (fun wi =>
      (priority.map (fun wj => lower (wi ++ wj))).filter comboInRange))) st = true →
    pairOuter priority rest st
      = checkAll ((rest.flatMap (fun wi =>
          (priority.map (fun wj => lower (wi ++ wj))).filter comboInRange))) st := by
  intro rest
  induction rest with
  | nil => intro st _; rfl
  | cons wi rest ih =>
    intro st h
    by_cases hinc : incomplete st = true
    · rw [List.flatMap_cons] at h ⊢
      rw [neverComplete_append, Bool.and_eq_true] at h
      rw [pairOuter, if_pos hinc, pairInner_eq wi priority st h.1, checkAll_append]
      exact ih _ h.2
    · rw [pairOuter, if_neg hinc, neverComplete_of_not_incomplete _ _ h hinc]
      rfl

theorem pairCandidates_rows (priority : List Str) :
    pairCandidates priority = priority.flatMap (fun wi =>
      (priority.map (fun wj => lower (wi ++ wj))).filter comboInRange) := by
  unfold pairCandidates List.product
  rw [List.map_flatMap, List.filter_flatMap]
  simp [List.map_map, Function.comp_def]

theorem attack3_eq (priority : List Str) (st : State)
    (h : neverComplete (pairCandidates priority) st = true) :
    attack3 priority st = checkAll (pairCandidates priority) st := by
  rw [pairCandidates_rows] at h ⊢
  exact pairOuter_eq priority priority st h

theorem lower_length (s : Str) : (lower s).length = s.length := by simp [lower]

theorem tolower_val : ∀ c : Byte,
    (tolower c).val = if 65 ≤ c.val ∧ c.val ≤ 90 then c.val + 32 else c.val := by
  decide

/-- Lower-casing maps the byte values `65..90` (`A`..`Z`) to `97..122` (`a`..`z`) and
leaves every other byte as it is. -/
theorem lower_values (s : Str) :
    (lower s).map Fin.val
      = s.map (fun c => if 65 ≤ c.val ∧ c.val ≤ 90 then c.val + 32 else c.val) := by
  unfold lower
  rw [List.map_map]
  apply List.map_congr_left
  intro c _
  exact tolower_val c

theorem pairCandidates_length (priority : List Str) :
    (pairCandidates priority).length
      = (List.product priority priority).countP
          (fun ij => decide (6 ≤ ij.1.length + ij.2.length ∧ ij.1.length + ij.2.length ≤ 28)) := by
  unfold pairCandidates
  rw [List.filter_map, List.length_map, List.countP_eq_length_filter]
  congr 2
  funext ij
  simp [comboInRange, lower_length]

/-- C9: when the registry never becomes complete, attack 3 tests exactly the strings
`lower (priority[i] ++ priority[j])` over the ordered pairs `(i, j)` of the priority list
(`i = j` and both orders included) whose combined length lies in `[6, 28]`, in row-major
order, so as many candidates as there are such pairs; 4 for `["abcdef", "ghijkl"]` and
none for `["ab", "cd"]`. Lower-casing turns exactly the bytes `A`..`Z` into `a`..`z`, so
the pairs of `["ABCdef", "GhIjKl"]` are tested as `abcdefabcdef`, `abcdefghijkl`,
`ghijklabcdef`, `ghijklghijkl`. The program runs the attack on the sorted priority list. -/
theorem pairwise_combination_enumeration (priority : List Str) (st : State)
    (h : neverComplete (pairCandidates priority) st = true) :
    attack3 priority st = checkAll (pairCandidates priority) st ∧
    (attack3 priority st).tested = st.tested ++ pairCandidates priority ∧
    pairCandidates priority
      = ((priority.flatMap (fun wi => priority.map (fun wj => (wi, wj)))).map
          (fun ij => lower (ij.1 ++ ij.2))).filter
            (fun c => decide (6 ≤ c.length ∧ c.length ≤ 28)) ∧
    (attack3 priority st).attempts = st.attempts +
      (priority.flatMap (fun wi => priority.map (fun wj => (wi, wj)))).countP
        (fun ij => decide (6 ≤ ij.1.length + ij.2.length ∧ ij.1.length + ij.2.length ≤ 28)) ∧
    pairCandidates [str "abcdef", str "ghijkl"]
      = [str "abcdefabcdef", str "abcdefghijkl", str "ghijklabcdef", str "ghijklghijkl"] ∧
    pairCandidates [str "ab", str "cd"] = [] ∧
    (∀ (hashes : SMap) (lines : List Str),
      runAttacks hashes (some lines)
        = attack4 (loadDict lines).1 (attack3 (priorityOf lines)
            (attack2 (loadDict lines).1 (attack1 8 (startState hashes))))) ∧
    (∀ s : Str, (lower s).map Fin.val
      = s.map (fun c => if 65 ≤ c.val ∧ c.val ≤ 90 then c.val + 32 else c.val)) ∧
    lower (str "AZ az@[09 MiXeD") = str "az az@[09 mixed" ∧
    pairCandidates [str "ABCdef", str "GhIjKl"]
      = [str "abcdefabcdef", str "abcdefghijkl", str "ghijklabcdef", str "ghijklghijkl"] := by
  have e := attack3_eq priority st h
  refine ⟨e, ?_, rfl, ?_, by decide, by decide, fun _ _ => rfl, lower_values, by decide,
    by decide⟩
  · rw [e, checkAll_tested]
  · rw [e, checkAll_attempts, pairCandidates_length]
    rfl

theorem pairwise_combination_enumeration_witness :
    neverComplete (pairCandidates [str "ABCDEF", str "ghIJkl"])
      (startState [(str "x", str "1")]) = true ∧
    (attack3 [str "ABCDEF", str "ghIJkl"] (startState [(str "x", str "1")])).tested
      = [] ++ [str "abcdefabcdef", str "abcdefghijkl", str "ghijklabcdef",
          str "ghijklghijkl"] :=
  have h : neverComplete (pairCandidates [str "ABCDEF", str "ghIJkl"])
      (startState [(str "x", str "1")]) = true := by decide
  ⟨h, (pairwise_combination_enumeration _ _ h).2.1⟩

/-! ## The priority list -/

theorem loadDict_priority_aux (lines : List Str) : ∀ acc : List Str × List Str,
    acc.2 = acc.1.filter (fun w => decide (w.length ≤ 14)) →
    (lines.foldl loadDictLine acc).2
      = (lines.foldl loadDictLine acc).1.filter (fun w => decide (w.length ≤ 14)) := by
  induction lines with
  | nil => intro acc h; exact h
  | cons line rest ih =>
    intro acc h
    rw [List.foldl_cons]
    apply ih
    unfold loadDictLine
    dsimp only
    split
    · by_cases h14 : (stripBOM (trim line)).length ≤ 14
      · simp [h14, h, List.filter_append]
      · simp [h14, h, List.filter_append]
    · exact h

/-- The unsorted `priority` vector holds the words of length at most 14, in file order. -/
theorem loadDict_priority (lines : List Str) :
    (loadDict lines).2 = (loadDict lines).1.filter (fun w => decide (w.length ≤ 14)) :=
  loadDict_priority_aux lines ([], []) rfl

theorem sortInsert_perm (less : Str → Str → Bool) (x : Str) (l : List Str) :
    (sortInsert less x l).Perm (x :: l) := by
  induction l with
  | nil => exact List.Perm.refl _
  | cons y ys ih =>
    unfold sortInsert
    split
    · exact List.Perm.refl _
    · exact ((List.perm_cons y).mpr ih).trans (List.Perm.swap x y ys)

theorem stdSort_perm (less : Str → Str → Bool) (l : List Str) : (stdSort less l).Perm l := by
  induction l with
  | nil => exact List.Perm.refl _
  | cons x xs ih =>
    show (sortInsert less x (stdSort less xs)).Perm (x :: xs)
    exact (sortInsert_perm less x _).trans ((List.perm_cons x).mpr ih)

theorem sortInsert_sorted (less : Str → Str → Bool)
    (hasymm : ∀ a b, less a b = true → less b a = false)
    (htrans : ∀ a b c, less a b = true → less b c = true → less a c = true)
    (x : Str) (l : List Str) (hl : l.Pairwise (fun a b => less b a = false)) :
    (sortInsert less x l).Pairwise (fun a b => less b a = false) := by
  induction l with
  | nil => simp [sortInsert]
  | cons y ys ih =>
    rw [List.pairwise_cons] at hl
    unfold sortInsert
    split
    · rename_i hxy
      rw [List.pairwise_cons]
      refine ⟨?_, List.pairwise_cons.mpr hl⟩
      intro z hz
      rcases List.mem_cons.mp hz with rfl | hz
      · exact hasymm _ _ hxy
      · have hyz := hl.1 z hz
        cases hzx : less z x
        · rfl
        · rw [htrans z x y hzx hxy] at hyz
          exact absurd hyz (by simp)
    · rename_i hxy
      rw [List.pairwise_cons]
      refine ⟨?_, ih hl.2⟩
      intro z hz
      rcases List.mem_cons.mp ((sortInsert_perm less x ys).mem_iff.mp hz) with rfl | hz
      · simpa using hxy
      · exact hl.1 z hz

theorem stdSort_sorted (less : Str → Str → Bool)
    (hasymm : ∀ a b, less a b = true → less b a = false)
    (htrans : ∀ a b c, less a b = true → less b c = true → less a c = true)
    (l : List Str) : (stdSort less l).Pairwise (fun a b => less b a = false) := by
  induction l with
  | nil => exact List.Pairwise.nil
  | cons x xs ih => exact sortInsert_sorted less hasymm htrans x _ ih

theorem strLt_iff_lex : ∀ a b : Str, strLt a b = true ↔ List.Lex (fun x y : Byte => x < y) a b := by
  intro a
  induction a with
  | nil =>
    intro b
    cases b with
    | nil => simp [strLt]
    | cons y ys => simp [strLt, List.Lex.nil]
  | cons x xs ih =>
    intro b
    cases b with
    | nil => simp [strLt]
    | cons y ys =>
      unfold strLt
      by_cases h1 : x < y
      · simp [h1, List.Lex.rel h1]
      · by_cases h2 : y < x
        · simp only [h1, h2, if_false, if_true, Bool.false_eq_true, false_iff]
          intro hlex
          cases hlex with
          | cons h => exact lt_irrefl _ h2
          | rel h => exact h1 h
        · have hxy : x = y := le_antisymm (not_lt.mp h2) (not_lt.mp h1)
          subst hxy
          simp only [h1, if_false, ih]
          constructor
          · intro h; exact List.Lex.cons h
          · intro h
            cases h with
            | cons h => exact h
            | rel h => exact absurd h h1

theorem strLt_asymm : ∀ a b : Str, strLt a b = true → strLt b a = false := by
  intro a
  induction a with
  | nil => intro b; cases b <;> simp [strLt]
  | cons x xs ih =>
    intro b
    cases b with
    | nil => simp [strLt]
    | cons y ys =>
      unfold strLt
      by_cases h1 : x < y
      · simp [h1, not_lt_of_lt h1]
      · by_cases h2 : y < x
        · simp [h1, h2]
        · simp only [h1, h2, if_false]
          exact ih ys

theorem strLt_trans : ∀ a b c : Str, strLt a b = true → strLt b c = true → strLt a c = true := by
  intro a
  induction a with
  | nil =>
    intro b c hab hbc
    cases b with
    | nil => simp [strLt] at hab
    | cons y ys =>
      cases c with
      | nil => simp [strLt] at hbc
      | cons z zs => simp [strLt]
  | cons x xs ih =>
    intro b c hab hbc
    cases b with
    | nil => simp [strLt] at hab
    | cons y ys =>
      cases c with
      | nil => simp [strLt] at hbc
      | cons z zs =>
        unfold strLt at hab hbc ⊢
        by_cases hxy : x < y
        · by_cases hyz : y < z
          · simp [lt_trans hxy hyz]
          · by_cases hzy : z < y
            · simp [hyz, hzy] at hbc
            · have : y = z := le_antisymm (not_lt.mp hzy) (not_lt.mp hyz)
              subst this
              simp [hxy]
        · by_cases hyx : y < x
          · simp [hxy, hyx] at hab
          · have : x = y := le_antisymm (not_lt.mp hyx) (not_lt.mp hxy)
            subst this
            simp only [hxy, if_false] at hab
            by_cases hxz : x < z
            · simp [hxz]
            · by_cases hzx : z < x
              · simp [hxz, hzx] at hbc
              · simp only [hxz, hzx, if_false] at hbc ⊢
                exact ih ys zs hab hbc

theorem strLt_total : ∀ a b : Str, strLt b a = false → a = b ∨ strLt a b = true := by
  intro a
  induction a with
  | nil => intro b; cases b <;> simp [strLt]
  | cons x xs ih =>
    intro b
    cases b with
    | nil => simp [strLt]
    | cons y ys =>
      unfold strLt
      by_cases h1 : y < x
      · simp [h1]
      · by_cases h2 : x < y
        · simp [h1, h2]
        · have : x = y := le_antisymm (not_lt.mp h1) (not_lt.mp h2)
          subst this
          simp only [h1, if_false, List.cons.injEq, true_and]
          exact ih ys

theorem priorityLess_asymm (a b : Str) (h : priorityLess a b = true) :
    priorityLess b a = false := by
  unfold priorityLess at h ⊢
  simp only [Bool.or_eq_true, Bool.and_eq_true, decide_eq_true_eq, beq_iff_eq] at h
  rcases h with h | ⟨h1, h2⟩
  · have h3 : ¬ b.length < a.length := by omega
    have h4 : ¬ b.length = a.length := by omega
    simp [h3, h4]
  · have h3 : ¬ b.length < a.length := by omega
    simp [h3, strLt_asymm a b h2]

theorem priorityLess_trans (a b c : Str) (h1 : priorityLess a b = true)
    (h2 : priorityLess b c = true) : priorityLess a c = true := by
  unfold priorityLess at h1 h2 ⊢
  simp only [Bool.or_eq_true, Bool.and_eq_true, decide_eq_true_eq, beq_iff_eq] at h1 h2 ⊢
  rcases h1 with h1 | ⟨h1, h1'⟩ <;> rcases h2 with h2 | ⟨h2, h2'⟩
  · left; omega
  · left; omega
  · left; omega
  · right; exact ⟨h1.trans h2, strLt_trans a b c h1' h2'⟩

/-- C10: the priority list is a permutation of the dictionary words of length at most 14
(multiplicities kept, longer words excluded), and it is sorted by length, then by
byte-lexicographic order: for positions `i < j`, either `priority[i]` is shorter than
`priority[j]`, or they have the same length and `priority[i] <= priority[j]`. -/
theorem priority_sorted_permutation (lines : List Str) :
    (priorityOf lines).Perm ((loadDict lines).1.filter (fun w => decide (w.length ≤ 14))) ∧
    (∀ w, w ∈ priorityOf lines ↔ (w ∈ (loadDict lines).1 ∧ w.length ≤ 14)) ∧
    (∀ (i j : Nat) (hi : i < (priorityOf lines).length) (hj : j < (priorityOf lines).length),
      i < j →
      ((priorityOf lines).get ⟨i, hi⟩).length < ((priorityOf lines).get ⟨j, hj⟩).length ∨
      (((priorityOf lines).get ⟨i, hi⟩).length = ((priorityOf lines).get ⟨j, hj⟩).length ∧
        ((priorityOf lines).get ⟨i, hi⟩ = (priorityOf lines).get ⟨j, hj⟩ ∨
         strLt ((priorityOf lines).get ⟨i, hi⟩) ((priorityOf lines).get ⟨j, hj⟩) = true))) ∧
    (∀ a b : Str, strLt a b = true ↔ List.Lex (fun x y : Byte => x < y) a b) := by
  have hperm : (priorityOf lines).Perm
      ((loadDict lines).1.filter (fun w => decide (w.length ≤ 14))) := by
    unfold priorityOf
    rw [← loadDict_priority]
    exact stdSort_perm _ _
  refine ⟨hperm, ?_, ?_, strLt_iff_lex⟩
  · intro w
    rw [hperm.mem_iff, List.mem_filter]
    simp
  · intro i j hi hj hij
    have hs : (priorityOf lines).Pairwise (fun a b => priorityLess b a = false) :=
      stdSort_sorted priorityLess priorityLess_asymm priorityLess_trans (loadDict lines).2
    have h : priorityLess (priorityOf lines)[j] (priorityOf lines)[i] = false :=
      (List.pairwise_iff_getElem.mp hs) i j hi hj hij
    simp only [List.get_eq_getElem]
    generalize (priorityOf lines)[i] = a at h ⊢
    generalize (priorityOf lines)[j] = b at h ⊢
    unfold priorityLess at h
    simp only [Bool.or_eq_false_iff, Bool.and_eq_false_imp, decide_eq_false_iff_not,
      beq_iff_eq, not_lt] at h
    rcases Nat.lt_or_ge a.length b.length with hlt | hge
    · left; exact hlt
    · right
      have heq : a.length = b.length := le_antisymm h.1 hge
      exact ⟨heq, strLt_total a b (h.2 heq.symm)⟩

/-! ## The invariant of the registry -/

theorem Inv_startState (hashes : SMap) : Inv (startState hashes) := by
  refine ⟨List.nodup_nil, ?_, ?_, ?_⟩
  · intro h hh; simp [startState, keys] at hh
  · intro c hc; simp [startState] at hc
  · intro e he; simp [startState] at he

theorem keys_append_single (m : SMap) (k v : Str) : keys (m ++ [(k, v)]) = keys m ++ [k] := by
  simp [keys]

theorem Inv_check (q : Str) (st : State) (hi : Inv st) : Inv (check q st).2 := by
  obtain ⟨h1, h2, h3, h4⟩ := hi
  cases hq : (check q st).1
  · have hnot : ¬ (sha1 q ∈ keys st.hashes ∧ sha1 q ∉ keys st.cracked) := by
      intro hc
      rw [(check_fst q st).mpr hc] at hq
      exact absurd hq (by simp)
    rw [check_miss q st hq]
    refine ⟨h1, h2, ?_, ?_⟩
    · intro c hc hk
      rcases List.mem_append.mp hc with hc | hc
      · exact h3 c hc hk
      · rw [List.mem_singleton.mp hc] at hk ⊢
        by_contra hn
        exact hnot ⟨hk, hn⟩
    · intro e he
      show (st.tested ++ [q]).find? _ = _
      rw [List.find?_append, h4 e he]
      rfl
  · have hk := (check_fst q st).mp hq
    rw [check_hit q st hq]
    refine ⟨?_, ?_, ?_, ?_⟩
    · show (keys (st.cracked ++ [(sha1 q, q)])).Nodup
      rw [keys_append_single]
      apply List.Nodup.append h1 (List.nodup_singleton _)
      intro x hx hx2
      rw [List.mem_singleton.mp hx2] at hx
      exact hk.2 hx
    · intro h hh
      change h ∈ keys (st.cracked ++ [(sha1 q, q)]) at hh
      rw [keys_append_single] at hh
      rcases List.mem_append.mp hh with hh | hh
      · exact h2 h hh
      · rw [List.mem_singleton.mp hh]; exact hk.1
    · intro c hc hkc
      show sha1 c ∈ keys (st.cracked ++ [(sha1 q, q)])
      rw [keys_append_single]
      rcases List.mem_append.mp hc with hc | hc
      · exact List.mem_append_left _ (h3 c hc hkc)
      · rw [List.mem_singleton.mp hc]
        exact List.mem_append_right _ (List.mem_singleton.mpr rfl)
    · intro e he
      show (st.tested ++ [q]).find? _ = _
      rw [List.find?_append]
      rcases List.mem_append.mp he with he | he
      · rw [h4 e he]; rfl
      · rw [List.mem_singleton.mp he]
        have hnone : st.tested.find? (fun c => decide (sha1 c = sha1 q)) = none := by
          rw [List.find?_eq_none]
          intro c hc hdec
          have heq : sha1 c = sha1 q := of_decide_eq_true hdec
          have hc1 : sha1 c ∈ keys st.hashes := by rw [heq]; exact hk.1
          have hc2 : sha1 c ∈ keys st.cracked := h3 c hc hc1
          rw [heq] at hc2
          exact hk.2 hc2
        rw [hnone]
        simp

theorem Inv_checkAll (cs : List Str) : ∀ st : State, Inv st → Inv (checkAll cs st) := by
  induction cs with
  | nil => intro st h; exact h
  | cons c cs ih => intro st h; exact ih _ (Inv_check c st h)

theorem checkAll_hashes (cs : List Str) : ∀ st : State, (checkAll cs st).hashes = st.hashes := by
  induction cs with
  | nil => intro st; rfl
  | cons c cs ih => intro st; rw [checkAll_cons, ih, check_hashes]

theorem check_keys_mono (q : Str) (st : State) (h : Str) (hh : h ∈ keys st.cracked) :
    h ∈ keys (check q st).2.cracked := by
  cases hq : (check q st).1
  · rw [check_miss q st hq]; exact hh
  · rw [check_hit q st hq]
    show h ∈ keys (st.cracked ++ [(sha1 q, q)])
    rw [keys_append_single]
    exact List.mem_append_left _ hh

theorem checkAll_keys_mono (cs : List Str) : ∀ (st : State) (h : Str),
    h ∈ keys st.cracked → h ∈ keys (checkAll cs st).cracked := by
  induction cs with
  | nil => intro st h hh; exact hh
  | cons c cs ih => intro st h hh; exact ih _ h (check_keys_mono c st h hh)

/-- Under the invariant the cracked map is no larger than the target map. -/
theorem Inv.size_le (st : State) (hi : Inv st) : mapSize st.cracked ≤ mapSize st.hashes := by
  have h := (List.subperm_of_subset hi.1 hi.2.1).length_le
  simpa [keys, mapSize] using h

/-- Under the invariant, a registry that is not incomplete has every target cracked. -/
theorem Inv.all_cracked (st : State) (hi : Inv st) (hc : incomplete st = false) :
    ∀ h ∈ keys st.hashes, h ∈ keys st.cracked := by
  have hsub := List.subperm_of_subset hi.1 hi.2.1
  have hle : (keys st.hashes).length ≤ (keys st.cracked).length := by
    have : ¬ mapSize st.cracked < mapSize st.hashes := by simpa [incomplete] using hc
    simp only [keys, List.length_map]
    simp only [mapSize] at this
    omega
  have hperm := hsub.perm_of_length_le hle
  intro h hh
  exact hperm.mem_iff.mpr hh

theorem Inv.guard_iff (st : State) (hi : Inv st) :
    incomplete st = false ↔ complete st = true := by
  have h := hi.size_le
  simp only [incomplete, complete, decide_eq_false_iff_not, decide_eq_true_eq]
  omega

/-! ## Every loop tests its enumeration in order until the registry is complete -/

theorem RunsTo.stuck (full : List Str) (st : State) (h : incomplete st = false) :
    RunsTo full st st :=
  ⟨[], rfl, Or.inr h⟩

theorem RunsTo.nil (st : State) : RunsTo [] st st := ⟨[], rfl, Or.inl rfl⟩

theorem RunsTo.cons (c : Str) (full : List Str) (st r : State)
    (h : RunsTo full (check c st).2 r) : RunsTo (c :: full) st r := by
  obtain ⟨cs, h1, h2⟩ := h
  refine ⟨c :: cs, by rw [checkAll_cons]; exact h1, ?_⟩
  rcases h2 with h2 | h2
  · left; rw [h2]
  · right; exact h2

theorem RunsTo.append (a b : List Str) (st s1 r : State) (h1 : RunsTo a st s1)
    (h2 : RunsTo b s1 r) (hstuck : incomplete s1 = false → r = s1) :
    RunsTo (a ++ b) st r := by
  obtain ⟨cs1, e1, c1⟩ := h1
  obtain ⟨cs2, e2, c2⟩ := h2
  rcases c1 with c1 | c1
  · refine ⟨cs1 ++ cs2, by rw [checkAll_append, ← e1]; exact e2, ?_⟩
    rcases c2 with c2 | c2
    · left; rw [c1, c2]
    · right; exact c2
  · have hr := hstuck c1
    exact ⟨cs1, by rw [hr]; exact e1, Or.inr (by rw [hr]; exact c1)⟩

theorem incomplete_false_of_not (st : State) (h : ¬ incomplete st = true) :
    incomplete st = false := by
  cases hc : incomplete st
  · rfl
  · exact absurd hc h

theorem bruteInner_stuck (length max_num : Nat) (fuel num : Nat) (st : State)
    (h : incomplete st = false) : bruteInner length max_num fuel num st = st := by
  cases fuel with
  | zero => rfl
  | succ fuel => rw [bruteInner, if_neg (by rw [h]; simp)]

theorem bruteOuter_stuck (M : Nat) (fuel length : Nat) (st : State)
    (h : incomplete st = false) : bruteOuter M fuel length st = st := by
  cases fuel with
  | zero => rfl
  | succ fuel => rw [bruteOuter, if_neg (by rw [h]; simp)]

theorem bruteInner_runs (length max_num : Nat) : ∀ (fuel num : Nat) (st : State),
    num + fuel = max_num →
    RunsTo ((List.range' num fuel).map (digitPassword length)) st
      (bruteInner length max_num fuel num st) := by
  intro fuel
  induction fuel with
  | zero => intro num st _; exact RunsTo.nil st
  | succ fuel ih =>
    intro num st hn
    by_cases hinc : incomplete st = true
    · rw [bruteInner, if_pos ⟨by omega, hinc⟩, List.range'_succ, List.map_cons]
      exact RunsTo.cons _ _ _ _ (ih (num + 1) _ (by omega))
    · have hf := incomplete_false_of_not st hinc
      rw [bruteInner_stuck _ _ _ _ _ hf]
      exact RunsTo.stuck _ st hf

theorem bruteOuter_runs (M : Nat) : ∀ (fuel length : Nat) (st : State),
    length + fuel = M + 1 →
    RunsTo ((List.range' length fuel).flatMap digitGroup) st (bruteOuter M fuel length st) := by
  intro fuel
  induction fuel with
  | zero => intro length st _; exact RunsTo.nil st
  | succ fuel ih =>
    intro length st hn
    by_cases hinc : incomplete st = true
    · rw [bruteOuter, if_pos ⟨by omega, hinc⟩, List.range'_succ, List.flatMap_cons]
      apply RunsTo.append _ _ _ _ _ _ (ih (length + 1) _ (by omega))
      · intro hs; exact bruteOuter_stuck _ _ _ _ hs
      · have h := bruteInner_runs length (maxNum length) (maxNum length) 0 st (by omega)
        rw [maxNum_eq] at h ⊢
        rw [← List.range_eq_range'] at h
        exact h
    · have hf := incomplete_false_of_not st hinc
      rw [bruteOuter_stuck _ _ _ _ hf]
      exact RunsTo.stuck _ st hf

theorem attack1_runs (M : Nat) (st : State) : RunsTo (digitCandidates M) st (attack1 M st) :=
  bruteOuter_runs M M 1 st (by omega)

theorem attack2_runs : ∀ (words : List Str) (st : State),
    RunsTo (wordCandidates words) st (attack2 words st) := by
  intro words
  induction words with
  | nil => intro st; exact RunsTo.nil st
  | cons w rest ih =>
    intro st
    rw [attack2]
    split
    · rename_i h
      refine ⟨[lower w], rfl, Or.inr ?_⟩
      have hc := h.2
      simp only [complete, decide_eq_true_eq] at hc
      simp only [incomplete, decide_eq_false_iff_not]
      omega
    · exact RunsTo.cons _ _ _ _ (ih _)

theorem pairInner_stuck (wi : Str) (rest : List Str) (st : State)
    (h : incomplete st = false) : pairInner wi rest st = st := by
  cases rest with
  | nil => rfl
  | cons wj rest => rw [pairInner, if_neg (by rw [h]; simp)]

theorem pairOuter_stuck (priority rest : List Str) (st : State)
    (h : incomplete st = false) : pairOuter priority rest st = st := by
  cases rest with
  | nil => rfl
  | cons wi rest => rw [pairOuter, if_neg (by rw [h]; simp)]

theorem pairInner_runs (wi : Str) : ∀ (rest : List Str) (st : State),
    RunsTo ((rest.map (fun wj => lower (wi ++ wj))).filter comboInRange) st
      (pairInner wi rest st) := by
  intro rest
  induction rest with
  | nil => intro st; exact RunsTo.nil st
  | cons wj rest ih =>
    intro st
    by_cases hinc : incomplete st = true
    · rw [pairInner, if_pos hinc, List.map_cons, List.filter_cons]
      dsimp only
      by_cases hr : comboInRange (lower (wi ++ wj)) = true
      · have hr2 : (lower (wi ++ wj)).length ≥ 6 ∧ (lower (wi ++ wj)).length ≤ 28 := by
          simpa [comboInRange] using hr
        rw [if_pos hr, if_pos hr2]
        exact RunsTo.cons _ _ _ _ (ih _)
      · have hr2 : ¬ ((lower (wi ++ wj)).length ≥ 6 ∧ (lower (wi ++ wj)).length ≤ 28) := by
          simpa [comboInRange] using hr
        rw [if_neg hr, if_neg hr2]
        exact ih _
    · have hf := incomplete_false_of_not st hinc
      rw [pairInner_stuck _ _ _ hf]
      exact RunsTo.stuck _ st hf

theorem pairOuter_runs (priority : List Str) : ∀ (rest : List Str) (st : State),
    RunsTo (rest.flatMap (fun wi =>
      (priority.map (fun wj => lower (wi ++ wj))).filter comboInRange)) st
      (pairOuter priority rest st) := by
  intro rest
  induction rest with
  | nil => intro st; exact RunsTo.nil st
  | cons wi rest ih =>
    intro st
    by_cases hinc : incomplete st = true
    · rw [pairOuter, if_pos hinc, List.flatMap_cons]
      exact RunsTo.append _ _ _ _ _ (pairInner_runs wi priority st) (ih _)
        (fun hs => pairOuter_stuck _ _ _ hs)
    · have hf := incomplete_false_of_not st hinc
      rw [pairOuter_stuck _ _ _ hf]
      exact RunsTo.stuck _ st hf

theorem attack3_runs (priority : List Str) (st : State) :
    RunsTo (pairCandidates priority) st (attack3 priority st) := by
  rw [pairCandidates_rows]
  exact pairOuter_runs priority priority st

theorem hybridInner_stuck (lw : Str) (fuel digits : Nat) (st : State)
    (h : incomplete st = false) : hybridInner lw fuel digits st = st := by
  cases fuel with
  | zero => rfl
  | succ fuel => rw [hybridInner, if_neg (by rw [h]; simp)]

theorem attack4_stuck : ∀ (words : List Str) (st : State),
    incomplete st = false → attack4 words st = st := by
  intro words
  induction words with
  | nil => intro st _; rfl
  | cons w rest ih =>
    intro st h
    rw [attack4]
    split
    · rfl
    · rw [hybridInner_stuck _ _ _ _ h]
      exact ih st h

theorem hybridInner_runs (lw : Str) : ∀ (fuel digits : Nat) (st : State),
    digits + fuel = 10000 →
    RunsTo ((List.range' digits fuel).map (fun n => lw ++ to_string n)) st
      (hybridInner lw fuel digits st) := by
  intro fuel
  induction fuel with
  | zero => intro digits st _; exact RunsTo.nil st
  | succ fuel ih =>
    intro digits st hn
    by_cases hinc : incomplete st = true
    · rw [hybridInner, if_pos ⟨by omega, hinc⟩, List.range'_succ, List.map_cons]
      exact RunsTo.cons _ _ _ _ (ih (digits + 1) _ (by omega))
    · have hf := incomplete_false_of_not st hinc
      rw [hybridInner_stuck _ _ _ _ hf]
      exact RunsTo.stuck _ st hf

theorem attack4_runs : ∀ (words : List Str) (st : State),
    RunsTo (hybridCandidates words) st (attack4 words st) := by
  intro words
  induction words with
  | nil => intro st; exact RunsTo.nil st
  | cons w rest ih =>
    intro st
    rw [attack4]
    split
    · rename_i hc
      refine RunsTo.stuck _ st ?_
      simp only [complete, decide_eq_true_eq] at hc
      simp only [incomplete, decide_eq_false_iff_not]
      omega
    · unfold hybridCandidates
      rw [List.flatMap_cons]
      refine RunsTo.append _ _ _ _ _ ?_ (ih _) (fun hs => attack4_stuck _ _ hs)
      have h := hybridInner_runs (lower w) 10000 0 st (by omega)
      rw [← List.range_eq_range'] at h
      exact h

/-! ## Attack 4 -/

theorem hybridInner_eq (lw : Str) : ∀ (fuel digits : Nat) (st : State),
    digits + fuel = 10000 →
    neverComplete ((List.range' digits fuel).map (fun n => lw ++ to_string n)) st = true →
    hybridInner lw fuel digits st
      = checkAll ((List.range' digits fuel).map (fun n => lw ++ to_string n)) st := by
  intro fuel
  induction fuel with
  | zero => intro digits st _ _; rfl
  | succ fuel ih =>
    intro digits st hn h
    rw [List.range'_succ, List.map_cons] at h ⊢
    simp only [neverComplete, Bool.and_eq_true] at h
    rw [hybridInner, if_pos ⟨by omega, h.1⟩, checkAll_cons]
    exact ih (digits + 1) _ (by omega) h.2

theorem attack4_eq : ∀ (words : List Str) (st : State),
    neverComplete (hybridCandidates words) st = true →
    attack4 words st = checkAll (hybridCandidates words) st := by
  intro words
  induction words with
  | nil => intro st _; rfl
  | cons w rest ih =>
    intro st h
    unfold hybridCandidates at h ⊢
    rw [List.flatMap_cons] at h ⊢
    rw [neverComplete_append, Bool.and_eq_true] at h
    have hinc : incomplete st = true := by
      by_contra hc
      have hnil := neverComplete_of_not_incomplete _ _ h.1 hc
      have hl := congrArg List.length hnil
      simp at hl
    have hnc : ¬ complete st = true := by
      simp only [incomplete, decide_eq_true_eq] at hinc
      simp only [complete, decide_eq_true_eq]
      omega
    have hin : hybridInner (lower w) 10000 0 st
        = checkAll ((List.range 10000).map (fun n => lower w ++ to_string n)) st := by
      rw [List.range_eq_range']
      apply hybridInner_eq _ _ _ _ (by omega)
      rw [← List.range_eq_range']
      exact h.1
    rw [attack4, if_neg hnc, hin, checkAll_append]
    exact ih _ h.2

theorem hybridCandidates_length (words : List Str) :
    (hybridCandidates words).length = 10000 * words.length := by
  induction words with
  | nil => rfl
  | cons w rest ih =>
    unfold hybridCandidates at ih ⊢
    rw [List.flatMap_cons, List.length_append, ih]
    simp only [List.length_map, List.length_range, List.length_cons]
    omega

theorem numeral_head (base : Nat) (hb : 1 < base) : ∀ (fuel n : Nat) (acc : Str),
    n < fuel → 0 < n →
    ∃ d rest, 0 < d ∧ d < base ∧ numeral base fuel n acc = hexDigit d :: rest := by
  intro fuel
  induction fuel with
  | zero => intro n acc h; omega
  | succ fuel ih =>
    intro n acc h hpos
    rw [numeral]
    split
    · rename_i h0
      have hlt : n < base := (Nat.div_eq_zero_iff (by omega)).mp h0
      exact ⟨n % base, acc, by rw [Nat.mod_eq_of_lt hlt]; exact hpos,
        Nat.mod_lt _ (by omega), rfl⟩
    · rename_i hne
      have hlt : n / base < fuel := by
        have : n / base < n := Nat.div_lt_self hpos hb
        omega
      exact ih _ _ hlt (Nat.pos_of_ne_zero hne)

theorem hexDigit_ne_zero_char : ∀ d, d < 10 → 0 < d → hexDigit d ≠ 48 := by decide

/-- `to_string n` is the decimal numeral of `n`: decimal digits only, value `n`, and no
leading zero except for the numeral `0` itself. -/
theorem to_string_spec (n : Nat) :
    (∀ c ∈ to_string n, 48 ≤ c.val ∧ c.val ≤ 57) ∧ numeralValue 10 (to_string n) = n ∧
    (to_string n = [48] ∨ (0 < n ∧ (to_string n).head? ≠ some 48)) := by
  refine ⟨?_, to_string_value n, ?_⟩
  · exact numeral_forall 10 (by omega) (fun c => 48 ≤ c.val ∧ c.val ≤ 57) hexDigit_decimal
      _ _ [] (by simp)
  · rcases Nat.eq_zero_or_pos n with h0 | hpos
    · left; rw [h0]; rfl
    · right
      obtain ⟨d, rest, hd0, hd10, he⟩ := numeral_head 10 (by omega) (n + 1) n []
        (Nat.lt_succ_self n) hpos
      refine ⟨hpos, ?_⟩
      unfold to_string
      rw [he]
      simp only [List.head?_cons, ne_eq, Option.some.injEq]
      exact hexDigit_ne_zero_char d hd10 hd0

/-! ## Discharging the hypothesis that the registry never becomes complete -/

theorem sha1_length (s : Str) : (sha1 s).length = 40 := by
  obtain ⟨h, b, hfs⟩ := SHA1.finalState_is_compress (SHA1.new.update s)
  obtain ⟨w0, w1, w2, w3, w4, hw, h0, h1, h2, h3, h4⟩ := compress_words h b
  have hs : sha1 s = hex8 w0 ++ hex8 w1 ++ hex8 w2 ++ hex8 w3 ++ hex8 w4 := by
    show toHex (SHA1.new.update s).finalState.hash = _
    rw [hfs, hw, toHex_five]
  rw [hs]
  simp only [List.length_append, hex8_length _ h0, hex8_length _ h1, hex8_length _ h2,
    hex8_length _ h3, hex8_length _ h4]

theorem check_of_not_target (c : Str) (st : State) (h : sha1 c ∉ keys st.hashes) :
    (check c st).2 = { st with attempts := st.attempts + 1, tested := st.tested ++ [c] } := by
  apply check_miss
  cases hc : (check c st).1
  · rfl
  · exact absurd ((check_fst c st).mp hc).1 h

/-- A registry that is incomplete stays so while no tested candidate hashes to a target. -/
theorem neverComplete_of_no_target (cs : List Str) : ∀ st : State,
    incomplete st = true → (∀ c ∈ cs, sha1 c ∉ keys st.hashes) →
    neverComplete cs st = true := by
  induction cs with
  | nil => intro st _ _; rfl
  | cons c cs ih =>
    intro st hinc hno
    rw [neverComplete, hinc, Bool.true_and]
    have hc := check_of_not_target c st (hno c (List.mem_cons_self _ _))
    apply ih
    · rw [hc]; exact hinc
    · intro c' hc'
      rw [hc]
      exact hno c' (List.mem_cons_of_mem _ hc')

/-- No candidate at all hashes to the one-character target `x`. -/
theorem neverComplete_single_x (cs : List Str) :
    neverComplete cs (startState [(str "x", str "1")]) = true := by
  apply neverComplete_of_no_target cs _ (by decide)
  intro c _ hmem
  have h1 : sha1 c = str "x" := by simpa [startState, keys] using hmem
  have h2 := sha1_length c
  rw [h1] at h2
  exact absurd h2 (by decide)

/-- The candidates of attack 4 for the one-word dictionary `Ab`: the word is lower-cased. -/
theorem hybridCandidates_Ab :
    hybridCandidates [str "Ab"]
      = (List.range 10000).map (fun n => str "ab" ++ to_string n) := by
  have h : lower (str "Ab") = str "ab" := by decide
  unfold hybridCandidates
  rw [List.flatMap_cons, List.flatMap_nil, List.append_nil, h]

/-- C11: when the registry never becomes complete, attack 4 tests, for each dictionary
word in file order (the full word list, not the priority list), the 10000 strings
`lower word ++ to_string n` for `n = 0, ..., 9999` ascending, where `to_string n` is the
decimal numeral of `n` without leading zeros; so `10000 * (number of words)` candidates.
Lower-casing turns exactly the bytes `A`..`Z` into `a`..`z`: for the word `Ab` the
candidates are `ab0`, `ab1`, ..., `ab9999`. -/
theorem hybrid_enumeration (words : List Str) (st : State)
    (h : neverComplete (hybridCandidates words) st = true) :
    attack4 words st = checkAll (hybridCandidates words) st ∧
    (attack4 words st).tested = st.tested ++ hybridCandidates words ∧
    (attack4 words st).attempts = st.attempts + 10000 * words.length ∧
    hybridCandidates words
      = words.flatMap (fun w => (List.range 10000).map (fun n => lower w ++ to_string n)) ∧
    (∀ n, (∀ c ∈ to_string n, 48 ≤ c.val ∧ c.val ≤ 57) ∧ numeralValue 10 (to_string n) = n ∧
      (to_string n = [48] ∨ (0 < n ∧ (to_string n).head? ≠ some 48))) ∧
    to_string 0 = str "0" ∧ to_string 9999 = str "9999" ∧
    (∀ (hashes : SMap) (lines : List Str),
      runAttacks hashes (some lines)
        = attack4 (loadDict lines).1 (attack3 (priorityOf lines)
            (attack2 (loadDict lines).1 (attack1 8 (startState hashes))))) ∧
    (∀ s : Str, (lower s).map Fin.val
      = s.map (fun c => if 65 ≤ c.val ∧ c.val ≤ 90 then c.val + 32 else c.val)) ∧
    lower (str "AZ az@[09 MiXeD") = str "az az@[09 mixed" ∧
    hybridCandidates [str "Ab"]
      = (List.range 10000).map (fun n => str "ab" ++ to_string n) ∧
    str "ab" ++ to_string 0 = str "ab0" ∧ str "ab" ++ to_string 9999 = str "ab9999" := by
  have e := attack4_eq words st h
  refine ⟨e, ?_, ?_, rfl, to_string_spec, by decide, by decide, fun _ _ => rfl,
    lower_values, by decide, hybridCandidates_Ab, by decide, by decide⟩
  · rw [e, checkAll_tested]
  · rw [e, checkAll_attempts, hybridCandidates_length]

theorem hybrid_enumeration_witness :
    neverComplete (hybridCandidates [str "Ab"]) (startState [(str "x", str "1")]) = true ∧
    (attack4 [str "Ab"] (startState [(str "x", str "1")])).tested
      = [] ++ (List.range 10000).map (fun n => str "ab" ++ to_string n) ∧
    (attack4 [str "Ab"] (startState [(str "x", str "1")])).attempts
      = 0 + 10000 * [str "Ab"].length :=
  ⟨neverComplete_single_x _,
    ((hybrid_enumeration [str "Ab"] _ (neverComplete_single_x _)).2.1).trans
      (by rw [hybridCandidates_Ab]; rfl),
    (hybrid_enumeration [str "Ab"] _ (neverComplete_single_x _)).2.2.1⟩

/-! ## Parsing a line of the password file -/

theorem isTrimChar_isspace : ∀ c : Byte, isTrimChar c = true → isspace c = true := by decide

theorem dropWhile_append_head (p : Byte → Bool) (a b : Str)
    (hb : ∀ x, b.head? = some x → p x = false) :
    (a ++ b).dropWhile p = a.dropWhile p ++ b := by
  induction a with
  | nil =>
    cases b with
    | nil => rfl
    | cons x xs =>
      have := hb x rfl
      simp [List.dropWhile_cons, this]
  | cons y ys ih =>
    simp only [List.cons_append, List.dropWhile_cons]
    split
    · exact ih
    · rfl

theorem isBlank_dropWhile (p : Byte → Bool) (b : Str) (h : isBlank b = true) :
    isBlank (b.dropWhile p) = true := by
  simp only [isBlank, List.all_eq_true] at h ⊢
  intro c hc
  exact h c ((List.dropWhile_sublist p).subset hc)

theorem isBlank_reverse (b : Str) (h : isBlank b = true) : isBlank b.reverse = true := by
  simp only [isBlank, List.all_eq_true] at h ⊢
  intro c hc
  exact h c (List.mem_reverse.mp hc)

/-- Trimming a line whose body starts and ends with a non-blank character leaves the body
between two runs of white space. -/
theorem trim_body (pre body post : Str) (hpre : isBlank pre = true)
    (hpost : isBlank post = true)
    (hhead : ∀ x, body.head? = some x → isspace x = false)
    (hlast : ∀ x, body.reverse.head? = some x → isspace x = false)
    (hne : body ≠ []) :
    ∃ pre2 post2, isBlank pre2 = true ∧ isBlank post2 = true ∧
      trim (pre ++ body ++ post) = pre2 ++ body ++ post2 := by
  have hT : ∀ {x : Byte}, isspace x = false → isTrimChar x = false := by
    intro x hx
    cases ht : isTrimChar x
    · rfl
    · rw [isTrimChar_isspace x ht] at hx
      exact absurd hx (by simp)
  have hrne : body.reverse ≠ [] := by simpa using hne
  refine ⟨pre.dropWhile isTrimChar, (post.reverse.dropWhile isTrimChar).reverse,
    isBlank_dropWhile _ _ hpre,
    isBlank_reverse _ (isBlank_dropWhile _ _ (isBlank_reverse _ hpost)), ?_⟩
  unfold trim
  have e1 : (pre ++ body ++ post).reverse = post.reverse ++ (body.reverse ++ pre.reverse) := by
    simp
  rw [e1, dropWhile_append_head _ _ _ (by
    intro x hx
    cases hb : body.reverse with
    | nil => exact absurd hb hrne
    | cons y ys =>
      rw [hb] at hx hlast
      simp only [List.cons_append, List.head?_cons, Option.some.injEq] at hx
      exact hT (hlast y rfl ▸ hx ▸ rfl))]
  have e2 : (List.dropWhile isTrimChar post.reverse ++ (body.reverse ++ pre.reverse)).reverse
      = pre ++ (body ++ (List.dropWhile isTrimChar post.reverse).reverse) := by
    simp
  rw [e2, dropWhile_append_head _ _ _ (by
    intro x hx
    cases hb : body with
    | nil => exact absurd hb hne
    | cons y ys =>
      rw [hb] at hx hhead
      simp only [List.cons_append, List.head?_cons, Option.some.injEq] at hx
      exact hT (hhead y rfl ▸ hx ▸ rfl))]
  simp

/-- Extraction skips white space and returns the token up to the next white space. -/
theorem extract_token (ws tok rest : Str) (hws : isBlank ws = true)
    (htok : ∀ c ∈ tok, isspace c = false)
    (hrest : ∀ x, rest.head? = some x → isspace x = true)
    (hne : tok ≠ [] ∨ rest = []) :
    extract (ws ++ tok ++ rest) = (tok, rest) := by
  have hws2 : ∀ a ∈ ws, isspace a = true := by simpa [isBlank] using hws
  have htok2 : ∀ a ∈ tok, (!isspace a) = true := by
    intro a ha; rw [htok a ha]; rfl
  have hskip : (ws ++ tok ++ rest).dropWhile isspace = tok ++ rest := by
    rw [List.append_assoc, List.dropWhile_append_of_pos hws2]
    cases tok with
    | nil =>
      rcases hne with h | h
      · exact absurd rfl h
      · rw [h]; rfl
    | cons x xs =>
      have := htok x (List.mem_cons_self _ _)
      simp [List.dropWhile_cons, this]
  have hrest2 : rest.takeWhile (fun c => !isspace c) = [] ∧
      rest.dropWhile (fun c => !isspace c) = rest := by
    cases rest with
    | nil => exact ⟨rfl, rfl⟩
    | cons x xs =>
      have := hrest x rfl
      simp [List.takeWhile_cons, List.dropWhile_cons, this]
  unfold extract
  simp only [hskip]
  rw [List.takeWhile_append_of_pos htok2, List.dropWhile_append_of_pos htok2, hrest2.1,
    hrest2.2, List.append_nil]

theorem isToken_spec (t : Str) (h : isToken t = true) :
    t ≠ [] ∧ (∀ c ∈ t, isspace c = false) := by
  simp only [isToken, Bool.and_eq_true, Bool.not_eq_true', List.all_eq_true] at h
  refine ⟨?_, h.2⟩
  intro hn
  rw [hn] at h
  simp at h

theorem token_head (t : Str) (h : isToken t = true) (u : Str) :
    ∀ x, (t ++ u).head? = some x → isspace x = false := by
  obtain ⟨hne, hall⟩ := isToken_spec t h
  intro x hx
  cases t with
  | nil => exact absurd rfl hne
  | cons y ys =>
    simp only [List.cons_append, List.head?_cons, Option.some.injEq] at hx
    rw [← hx]
    exact hall y (List.mem_cons_self _ _)

theorem token_last (t : Str) (h : isToken t = true) (u : Str) :
    ∀ x, (u ++ t).reverse.head? = some x → isspace x = false := by
  obtain ⟨hne, hall⟩ := isToken_spec t h
  intro x hx
  rw [List.reverse_append] at hx
  have hr : isToken t.reverse = true := by
    simp only [isToken, Bool.and_eq_true, Bool.not_eq_true', List.all_eq_true] at h ⊢
    refine ⟨?_, fun c hc => h.2 c (List.mem_reverse.mp hc)⟩
    cases t with
    | nil => exact absurd rfl hne
    | cons y ys => simp
  exact token_head t.reverse hr _ x hx

theorem blank_head (b : Str) (h : isBlank b = true) :
    ∀ x, b.head? = some x → isspace x = true := by
  intro x hx
  cases b with
  | nil => simp at hx
  | cons y ys =>
    simp only [List.head?_cons, Option.some.injEq] at hx
    simp only [isBlank, List.all_cons, Bool.and_eq_true] at h
    rw [← hx]; exact h.1

theorem blank_append_head (b u : Str) (h : isBlank b = true) (hne : b ≠ []) :
    ∀ x, (b ++ u).head? = some x → isspace x = true := by
  intro x hx
  cases b with
  | nil => exact absurd rfl hne
  | cons y ys =>
    simp only [List.cons_append, List.head?_cons, Option.some.injEq] at hx
    simp only [isBlank, List.all_cons, Bool.and_eq_true] at h
    rw [← hx]; exact h.1

/-- What the loop body does with a line that carries one or two tokens. -/
theorem loadLine_render (e : TargetLine) (he : e.wf = true) (acc : SMap × Nat) :
    loadLine acc e.render = (mapAssign acc.1 e.digest (e.labelAt acc.2), acc.2 + 1) := by
  cases e with
  | single pre d post =>
    simp only [TargetLine.wf, Bool.and_eq_true] at he
    obtain ⟨⟨hpre, hd⟩, hpost⟩ := he
    obtain ⟨pre2, post2, hp2, hq2, ht⟩ := trim_body pre d post hpre hpost
      (by simpa using token_head d hd []) (by simpa using token_last d hd [])
      (isToken_spec d hd).1
    have e1 : extract (pre2 ++ d ++ post2) = (d, post2) :=
      extract_token pre2 d post2 hp2 (isToken_spec d hd).2 (blank_head post2 hq2)
        (Or.inl (isToken_spec d hd).1)
    have e2 : extract post2 = ([], []) := by
      have := extract_token post2 [] [] hq2 (by simp) (by simp) (Or.inr rfl)
      simpa using this
    unfold loadLine
    simp only [TargetLine.render, ht, e1, e2, TargetLine.digest, TargetLine.labelAt]
    rfl
  | labelled pre l mid d post =>
    simp only [TargetLine.wf, Bool.and_eq_true, Bool.not_eq_true'] at he
    obtain ⟨⟨⟨⟨⟨hpre, hl⟩, hmid⟩, hmne⟩, hd⟩, hpost⟩ := he
    have hmne2 : mid ≠ [] := by
      intro h; rw [h] at hmne; simp at hmne
    obtain ⟨pre2, post2, hp2, hq2, ht⟩ := trim_body pre (l ++ mid ++ d) post hpre hpost
      (by rw [List.append_assoc]; exact token_head l hl _)
      (token_last d hd _)
      (by
        intro h
        have := congrArg List.length h
        simp only [List.length_append, List.length_nil] at this
        have hl0 : l.length ≠ 0 := fun h0 => (isToken_spec l hl).1 (List.length_eq_zero.mp h0)
        omega)
    have e1 : extract (pre2 ++ l ++ (mid ++ d ++ post2)) = (l, mid ++ d ++ post2) :=
      extract_token pre2 l _ hp2 (isToken_spec l hl).2
        (by rw [List.append_assoc]; exact blank_append_head mid _ hmid hmne2)
        (Or.inl (isToken_spec l hl).1)
    have e2 : extract (mid ++ d ++ post2) = (d, post2) :=
      extract_token mid d post2 hmid (isToken_spec d hd).2 (blank_head post2 hq2)
        (Or.inl (isToken_spec d hd).1)
    have e0 : pre ++ l ++ mid ++ d ++ post = pre ++ (l ++ mid ++ d) ++ post := by simp
    have e3 : pre2 ++ (l ++ mid ++ d) ++ post2 = pre2 ++ l ++ (mid ++ d ++ post2) := by simp
    have hdne : d.isEmpty = false := by
      cases d with
      | nil => exact absurd rfl (isToken_spec _ hd).1
      | cons y ys => rfl
    unfold loadLine
    simp only [TargetLine.render, e0, ht, e3, e1, e2, TargetLine.digest, TargetLine.labelAt,
      hdne]
    rfl

theorem foldl_loadLine_counter (entries : List TargetLine) : ∀ (acc : SMap × Nat),
    (∀ e ∈ entries, e.wf = true) →
    ((entries.map TargetLine.render).foldl loadLine acc).2 = acc.2 + entries.length := by
  induction entries with
  | nil => intro acc _; rfl
  | cons e rest ih =>
    intro acc hwf
    simp only [List.map_cons, List.foldl_cons, List.length_cons]
    rw [ih _ (fun x hx => hwf x (List.mem_cons_of_mem _ hx)),
      loadLine_render e (hwf e (List.mem_cons_self _ _))]
    show acc.2 + 1 + rest.length = _
    omega

theorem RunsTo.reach (full : List Str) (st r : State) (h : RunsTo full st r) :
    ∃ cs, r = checkAll cs st := by
  obtain ⟨cs, h1, _⟩ := h
  exact ⟨cs, h1⟩

theorem runAttacks_reach (hashes : SMap) (dict : Option (List Str)) :
    ∃ cs, runAttacks hashes dict = checkAll cs (startState hashes) := by
  obtain ⟨cs1, h1⟩ := (attack1_runs 8 (startState hashes)).reach
  cases dict with
  | none => exact ⟨cs1, h1⟩
  | some lines =>
    obtain ⟨cs2, h2⟩ :=
      (attack2_runs (loadDict lines).1 (attack1 8 (startState hashes))).reach
    obtain ⟨cs3, h3⟩ := (attack3_runs (priorityOf lines)
      (attack2 (loadDict lines).1 (attack1 8 (startState hashes)))).reach
    obtain ⟨cs4, h4⟩ := (attack4_runs (loadDict lines).1 (attack3 (priorityOf lines)
      (attack2 (loadDict lines).1 (attack1 8 (startState hashes))))).reach
    refine ⟨cs1 ++ cs2 ++ cs3 ++ cs4, ?_⟩
    show attack4 (loadDict lines).1 (attack3 (priorityOf lines)
      (attack2 (loadDict lines).1 (attack1 8 (startState hashes)))) = _
    rw [checkAll_append, checkAll_append, checkAll_append, ← h1, ← h2, ← h3, ← h4]

theorem runAttacks_eq_checkAll (hashes : SMap) (dict : Option (List Str)) :
    runAttacks hashes dict = checkAll (runAttacks hashes dict).tested (startState hashes) := by
  obtain ⟨cs, h⟩ := runAttacks_reach hashes dict
  have ht : (runAttacks hashes dict).tested = cs := by
    rw [h, checkAll_tested]; rfl
  rw [ht]; exact h

theorem runAttacks_hashes (hashes : SMap) (dict : Option (List Str)) :
    (runAttacks hashes dict).hashes = hashes := by
  obtain ⟨cs, h⟩ := runAttacks_reach hashes dict
  rw [h, checkAll_hashes]; rfl

theorem check_mem_mono (q : Str) (st : State) (e : Str × Str) (he : e ∈ st.cracked) :
    e ∈ (check q st).2.cracked := by
  cases hq : (check q st).1
  · rw [check_miss q st hq]; exact he
  · rw [check_hit q st hq]
    exact List.mem_append_left _ he

theorem checkAll_mem_mono (cs : List Str) : ∀ (st : State) (e : Str × Str),
    e ∈ st.cracked → e ∈ (checkAll cs st).cracked := by
  induction cs with
  | nil => intro st e he; exact he
  | cons c cs ih => intro st e he; exact ih _ e (check_mem_mono c st e he)

theorem mapFind_of_mem_nodup (m : SMap) (e : Str × Str) (he : e ∈ m) (hn : (keys m).Nodup) :
    mapFind m e.1 = some e.2 := by
  induction m with
  | nil => simp at he
  | cons x rest ih =>
    simp only [keys, List.map_cons, List.nodup_cons] at hn
    unfold mapFind
    rcases List.mem_cons.mp he with h | h
    · rw [h]; simp
    · have hne : ¬ x.1 = e.1 := by
        intro hx
        exact hn.1 (hx ▸ List.mem_map_of_mem Prod.fst h)
      rw [if_neg hne]
      exact ih h hn.2

/-- C14: every recorded crack is a first-found genuine match. The run is a sequence of
calls of `check` from an empty cracked map; after every prefix of it, each cracked entry
`h -> p` has `h` among the targets, `sha1 p = h`, and `p` is the earliest tested candidate
with digest `h`, in the prefix and in the whole run; the entry is still there, with the
same plaintext, when the run ends, and no digest has two entries. -/
theorem cracked_entries_first_found (hashes : SMap) (dict : Option (List Str)) :
    runAttacks hashes dict
      = checkAll (runAttacks hashes dict).tested (startState hashes) ∧
    (∀ (k : Nat) (h p : Str),
      (h, p) ∈ (checkAll ((runAttacks hashes dict).tested.take k) (startState hashes)).cracked →
      h ∈ keys hashes ∧ sha1 p = h ∧
      ((runAttacks hashes dict).tested.take k).find? (fun c => decide (sha1 c = h)) = some p ∧
      (runAttacks hashes dict).tested.find? (fun c => decide (sha1 c = h)) = some p ∧
      (h, p) ∈ (runAttacks hashes dict).cracked ∧
      mapFind (runAttacks hashes dict).cracked h = some p) ∧
    (keys (runAttacks hashes dict).cracked).Nodup ∧
    (runAttacks [(str "b6589fc6ab0dc82cf12099d1c2d40ab994e8410c", str "1")] none).cracked
      = [(str "b6589fc6ab0dc82cf12099d1c2d40ab994e8410c", str "0")] := by
  have hrun := runAttacks_eq_checkAll hashes dict
  have hinv : Inv (runAttacks hashes dict) := by
    rw [hrun]; exact Inv_checkAll _ _ (Inv_startState hashes)
  refine ⟨hrun, ?_, hinv.1, by decide⟩
  intro k h p hmem
  have hk : Inv (checkAll ((runAttacks hashes dict).tested.take k) (startState hashes)) :=
    Inv_checkAll _ _ (Inv_startState hashes)
  have hfind := hk.2.2.2 (h, p) hmem
  rw [checkAll_tested] at hfind
  have hfind2 : ((runAttacks hashes dict).tested.take k).find?
      (fun c => decide (sha1 c = h)) = some p := by
    simpa [startState] using hfind
  have hsha : sha1 p = h := by
    have := List.find?_some hfind2
    exact of_decide_eq_true this
  have hkey : h ∈ keys hashes := by
    have := hk.2.1 h (List.mem_map_of_mem Prod.fst hmem)
    rw [checkAll_hashes] at this
    exact this
  have hend : (h, p) ∈ (runAttacks hashes dict).cracked := by
    have hsplit : (runAttacks hashes dict).tested
        = (runAttacks hashes dict).tested.take k ++ (runAttacks hashes dict).tested.drop k :=
      (List.take_append_drop k _).symm
    have h2 := checkAll_mem_mono ((runAttacks hashes dict).tested.drop k) _ _ hmem
    rw [← checkAll_append, ← hsplit, ← hrun] at h2
    exact h2
  exact ⟨hkey, hsha, hfind2, hinv.2.2.2 (h, p) hend, hend,
    mapFind_of_mem_nodup _ (h, p) hend hinv.1⟩

/-- C16: in every state reached from an empty cracked map by calls of `check`, every key
of the cracked map is a key of the target map, so the cracked count is at most the target
count, and the guard `cracked.size() < hashes.size()` is false exactly when the two
counts are equal, which is the test `cracked.size() == hashes.size()`. -/
theorem completion_tests_agree (hashes : SMap) (cs : List Str) :
    (checkAll cs (startState hashes)).hashes = hashes ∧
    (∀ h ∈ keys (checkAll cs (startState hashes)).cracked, h ∈ keys hashes) ∧
    mapSize (checkAll cs (startState hashes)).cracked ≤ mapSize hashes ∧
    (incomplete (checkAll cs (startState hashes)) = false
      ↔ complete (checkAll cs (startState hashes)) = true) ∧
    (incomplete (checkAll cs (startState hashes)) = false
      ↔ mapSize (checkAll cs (startState hashes)).cracked = mapSize hashes) ∧
    (∀ dict, ∃ cs2, runAttacks hashes dict = checkAll cs2 (startState hashes)) := by
  have hinv : Inv (checkAll cs (startState hashes)) := Inv_checkAll _ _ (Inv_startState hashes)
  have hh : (checkAll cs (startState hashes)).hashes = hashes := by
    rw [checkAll_hashes]; rfl
  refine ⟨hh, ?_, ?_, hinv.guard_iff, ?_, fun dict => runAttacks_reach hashes dict⟩
  · intro h hmem
    have := hinv.2.1 h hmem
    rw [hh] at this
    exact this
  · have := hinv.size_le
    rw [hh] at this
    exact this
  · rw [hinv.guard_iff]
    simp only [complete, decide_eq_true_eq, hh]

/-! ## Loading the targets -/

/-- C13 (the code departs from the claim): a blank or white-space-only line of the
password file is not skipped. It inserts an entry under the empty digest, so the target
count is one more than for the list without that line, and the registry that would be
complete after cracking the only real target is not. -/
theorem blank_line_adds_target :
    loadTargets [str "b6589fc6ab0dc82cf12099d1c2d40ab994e8410c", str ""]
      = [(str "b6589fc6ab0dc82cf12099d1c2d40ab994e8410c", str "1"), (str "", str "2")] ∧
    loadTargets [str "b6589fc6ab0dc82cf12099d1c2d40ab994e8410c", str " \t "]
      = [(str "b6589fc6ab0dc82cf12099d1c2d40ab994e8410c", str "1"), (str "", str "2")] ∧
    mapSize (loadTargets [str "b6589fc6ab0dc82cf12099d1c2d40ab994e8410c", str ""]) = 2 ∧
    mapSize (loadTargets [str "b6589fc6ab0dc82cf12099d1c2d40ab994e8410c"]) = 1 ∧
    complete (check (str "0")
      (startState (loadTargets [str "b6589fc6ab0dc82cf12099d1c2d40ab994e8410c"]))).2 = true ∧
    complete (check (str "0")
      (startState (loadTargets
        [str "b6589fc6ab0dc82cf12099d1c2d40ab994e8410c", str ""]))).2 = false := by
  decide

theorem mapAssign_ne_nil (m : SMap) (k v : Str) : mapAssign m k v ≠ [] := by
  cases m with
  | nil => simp [mapAssign]
  | cons e rest =>
    unfold mapAssign
    split <;> simp

theorem loadLine_ne_nil (acc : SMap × Nat) (line : Str) : (loadLine acc line).1 ≠ [] := by
  unfold loadLine
  dsimp only
  split <;> exact mapAssign_ne_nil _ _ _

theorem foldl_loadLine_ne_nil (lines : List Str) : ∀ acc : SMap × Nat,
    acc.1 ≠ [] → (lines.foldl loadLine acc).1 ≠ [] := by
  induction lines with
  | nil => intro acc h; exact h
  | cons l rest ih => intro acc _; exact ih _ (loadLine_ne_nil acc l)

theorem loadTargets_eq_nil_iff (lines : List Str) : loadTargets lines = [] ↔ lines = [] := by
  constructor
  · intro h
    cases lines with
    | nil => rfl
    | cons l rest =>
      exact absurd h (foldl_loadLine_ne_nil rest _ (loadLine_ne_nil _ l))
  · intro h; rw [h]; rfl

/-- C19: the divisor of the summary percentage is non-zero exactly when the password file
has at least one line, because every line read, blank or not, inserts a target entry. For
a file without lines (or one that cannot be read) the target map is empty, attack 1 tests
nothing, and the percentage is a division by zero. -/
theorem percentage_divisor (lines : List Str) (dict : Option (List Str)) :
    (mapSize (main lines dict).hashes ≠ 0 ↔ lines ≠ []) ∧
    ((summaryPercent (main lines dict)).isSome = true ↔ lines ≠ []) ∧
    (∀ (acc : SMap × Nat) (line : Str), (loadLine acc line).1 ≠ []) ∧
    loadTargets [] = [] ∧
    attack1 8 (startState (loadTargets [])) = startState (loadTargets []) ∧
    (main [] none).attempts = 0 ∧ (main [] none).tested = [] ∧
    summaryPercent (main [] dict) = none := by
  have hh : (main lines dict).hashes = loadTargets lines := runAttacks_hashes _ _
  have hsize : mapSize (main lines dict).hashes ≠ 0 ↔ lines ≠ [] := by
    rw [hh]
    simp only [mapSize, ne_eq, List.length_eq_zero]
    exact not_iff_not.mpr (loadTargets_eq_nil_iff lines)
  refine ⟨hsize, ?_, loadLine_ne_nil, rfl, by decide, by decide, by decide, ?_⟩
  · rw [← hsize]
    unfold summaryPercent
    split
    · rename_i h; simp [h]
    · rename_i h; simp [h]
  · have h0 : (main [] dict).hashes = [] := runAttacks_hashes _ _
    unfold summaryPercent
    rw [h0]
    rfl

/-! ## The length filter of attack 3 -/

theorem loadDict_words_aux (lines : List Str) : ∀ acc : List Str × List Str,
    (∀ w ∈ acc.1, w ≠ []) → ∀ w ∈ (lines.foldl loadDictLine acc).1, w ≠ [] := by
  induction lines with
  | nil => intro acc h; exact h
  | cons line rest ih =>
    intro acc h
    rw [List.foldl_cons]
    apply ih
    unfold loadDictLine
    dsimp only
    split
    · rename_i hne
      intro w hw
      rcases List.mem_append.mp hw with hw | hw
      · exact h w hw
      · rw [List.mem_singleton.mp hw]
        intro he
        rw [he] at hne
        simp at hne
    · exact h

/-- Every dictionary word kept by the loader is non-empty. -/
theorem loadDict_words_ne_nil (lines : List Str) : ∀ w ∈ (loadDict lines).1, w ≠ [] :=
  loadDict_words_aux lines ([], []) (by simp)

theorem priorityOf_mem (lines : List Str) (w : Str) (hw : w ∈ priorityOf lines) :
    w ∈ (loadDict lines).1 ∧ 1 ≤ w.length ∧ w.length ≤ 14 := by
  have hperm : (priorityOf lines).Perm (loadDict lines).2 := stdSort_perm _ _
  have h2 := hperm.mem_iff.mp hw
  rw [loadDict_priority, List.mem_filter] at h2
  have hne := loadDict_words_ne_nil lines w h2.1
  refine ⟨h2.1, ?_, by simpa using h2.2⟩
  cases w with
  | nil => exact absurd rfl hne
  | cons x xs => simp

/-- C18: the upper bound of the length filter of attack 3 excludes nothing. For every
dictionary, every combination `lower (priority[i] ++ priority[j])` has a length between 2
and 28, since lower-casing keeps the length and a priority word has between 1 and 14
characters; so a pair is tested exactly when its combined length is at least 6. -/
theorem pair_filter_upper_bound_idle (lines : List Str) :
    (∀ w ∈ priorityOf lines, 1 ≤ w.length ∧ w.length ≤ 14) ∧
    (∀ s : Str, (lower s).length = s.length) ∧
    (∀ a ∈ priorityOf lines, ∀ b ∈ priorityOf lines,
      2 ≤ (lower (a ++ b)).length ∧ (lower (a ++ b)).length ≤ 28 ∧
      (((lower (a ++ b)).length ≥ 6 ∧ (lower (a ++ b)).length ≤ 28)
        ↔ 6 ≤ a.length + b.length)) ∧
    pairCandidates (priorityOf lines)
      = ((List.product (priorityOf lines) (priorityOf lines)).map
          (fun ij => lower (ij.1 ++ ij.2))).filter (fun c => decide (6 ≤ c.length)) := by
  have hw : ∀ w ∈ priorityOf lines, 1 ≤ w.length ∧ w.length ≤ 14 :=
    fun w h => (priorityOf_mem lines w h).2
  refine ⟨hw, lower_length, ?_, ?_⟩
  · intro a ha b hb
    have h1 := hw a ha
    have h2 := hw b hb
    rw [lower_length, List.length_append]
    omega
  · unfold pairCandidates
    apply List.filter_congr
    intro c hc
    obtain ⟨ij, hij, rfl⟩ := List.mem_map.mp hc
    have hmem := List.mem_product.mp hij
    have h1 := hw _ hmem.1
    have h2 := hw _ hmem.2
    simp only [comboInRange, lower_length, List.length_append, ge_iff_le, decide_eq_decide]
    omega

/-! ## Digit strings -/

theorem numeralValue_concat (s : Str) (x : Byte) :
    numeralValue 10 (s ++ [x]) = 10 * numeralValue 10 s + digitValue x := by
  simp [numeralValue, List.foldl_append]

theorem digitValue_digit (x : Byte) (h : 48 ≤ x.val ∧ x.val ≤ 57) :
    digitValue x = x.val - 48 ∧ digitValue x < 10 := by
  unfold digitValue
  rw [if_pos (by omega)]
  omega

theorem numeralValue_lt (s : Str) (hs : isDigits s) : numeralValue 10 s < 10 ^ s.length := by
  induction s using List.reverseRecOn with
  | nil => simp [numeralValue]
  | append_singleton s x ih =>
    have hx := digitValue_digit x (hs x (by simp))
    have := ih (fun b hb => hs b (List.mem_append_left _ hb))
    rw [numeralValue_concat, List.length_append, List.length_singleton, Nat.pow_succ]
    omega

/-- Two digit strings of the same length and the same value are equal. -/
theorem digits_unique (s : Str) : ∀ t : Str, s.length = t.length → isDigits s → isDigits t →
    numeralValue 10 s = numeralValue 10 t → s = t := by
  induction s using List.reverseRecOn with
  | nil =>
    intro t hl _ _ _
    exact (List.length_eq_zero.mp (by simpa using hl.symm)).symm
  | append_singleton s x ih =>
    intro t hl hs ht hv
    rcases List.eq_nil_or_concat t with rfl | ⟨t', y, rfl⟩
    · simp at hl
    · rw [List.concat_eq_append] at hl ht hv ⊢
      have hx := digitValue_digit x (hs x (by simp))
      have hy := digitValue_digit y (ht y (by simp))
      rw [numeralValue_concat, numeralValue_concat] at hv
      have hl2 : s.length = t'.length := by simpa using hl
      have hv2 : numeralValue 10 s = numeralValue 10 t' := by omega
      have hxy : x.val = y.val := by
        have h1 := hs x (by simp)
        have h2 := ht y (by simp)
        omega
      rw [ih t' hl2 (fun b hb => hs b (List.mem_append_left _ hb))
        (fun b hb => ht b (List.mem_append_left _ hb)) hv2, Fin.ext hxy]

/-- Every digit string of length 1 to `M` is a candidate of attack 1. -/
theorem mem_digitCandidates (M : Nat) (c : Str) (h1 : 1 ≤ c.length) (hM : c.length ≤ M)
    (hd : isDigits c) : c ∈ digitCandidates M := by
  unfold digitCandidates
  rw [List.mem_flatMap]
  refine ⟨c.length, List.mem_range'_1.mpr ⟨h1, by omega⟩, ?_⟩
  unfold digitGroup
  rw [List.mem_map]
  have hlt := numeralValue_lt c hd
  refine ⟨numeralValue 10 c, List.mem_range.mpr hlt, ?_⟩
  obtain ⟨e1, e2, e3⟩ := digitPassword_spec c.length (numeralValue 10 c) h1 hlt
  exact digits_unique _ c e1 e2 hd e3

/-! ## Completeness of the search -/

theorem RunsTo.inv (full : List Str) (st r : State) (hr : RunsTo full st r) (hi : Inv st) :
    Inv r := by
  obtain ⟨cs, h, _⟩ := hr
  rw [h]; exact Inv_checkAll cs st hi

theorem RunsTo.hashes (full : List Str) (st r : State) (hr : RunsTo full st r) :
    r.hashes = st.hashes := by
  obtain ⟨cs, h, _⟩ := hr
  rw [h]; exact checkAll_hashes cs st

theorem RunsTo.keys_mono (full : List Str) (st r : State) (hr : RunsTo full st r) (h : Str)
    (hh : h ∈ keys st.cracked) : h ∈ keys r.cracked := by
  obtain ⟨cs, e, _⟩ := hr
  rw [e]; exact checkAll_keys_mono cs st h hh

/-- A candidate of the enumeration whose digest is a target has its digest cracked when
the loop ends. -/
theorem RunsTo.covered (full : List Str) (st r : State) (hr : RunsTo full st r)
    (hi : Inv st) (c : Str) (hc : c ∈ full) (ht : sha1 c ∈ keys st.hashes) :
    sha1 c ∈ keys r.cracked := by
  have hinv := hr.inv full st r hi
  have hh := hr.hashes full st r
  obtain ⟨cs, e, hcase⟩ := hr
  rcases hcase with hfull | hdone
  · apply hinv.2.2.1 c
    · rw [e, checkAll_tested, hfull]
      exact List.mem_append_right _ hc
    · rw [hh]; exact ht
  · apply hinv.all_cracked r hdone
    rw [hh]; exact ht

/-- C15: the search is complete over its enumerated space. For every target map, every
optional dictionary and every candidate of the enumerated space whose digest is a key of
the target map, that digest is a key of the cracked map when the run ends: stopping early
never loses a reachable target. The lower-casing of the space turns exactly the bytes
`A`..`Z` into `a`..`z`. -/
theorem search_complete (hashes : SMap) (dict : Option (List Str)) (c : Str)
    (hspace : inSearchSpace dict c) (htarget : sha1 c ∈ keys hashes) :
    sha1 c ∈ keys (runAttacks hashes dict).cracked ∧
    (∀ s : Str, (lower s).map Fin.val
      = s.map (fun c => if 65 ≤ c.val ∧ c.val ≤ 90 then c.val + 32 else c.val)) ∧
    lower (str "AZ az@[09 MiXeD") = str "az az@[09 mixed" ∧
    inSearchSpace (some [str "Ab", str "Cd"]) (str "ab") ∧
    inSearchSpace (some [str "Abc", str "DEF"]) (str "defabc") ∧
    inSearchSpace (some [str "Ab", str "Cd"]) (str "cd42") := by
  refine ⟨?_, lower_values, by decide,
    Or.inr ⟨_, rfl, Or.inl ⟨str "Ab", by decide, by decide⟩⟩,
    Or.inr ⟨_, rfl, Or.inr (Or.inl ⟨str "DEF", by decide, str "Abc", by decide, by decide,
      by decide, by decide⟩)⟩,
    Or.inr ⟨_, rfl, Or.inr (Or.inr ⟨str "Cd", by decide, 42, by decide, by decide⟩)⟩⟩
  have i0 : Inv (startState hashes) := Inv_startState hashes
  have r1 := attack1_runs 8 (startState hashes)
  have i1 := r1.inv _ _ _ i0
  have h1 : (attack1 8 (startState hashes)).hashes = hashes := r1.hashes _ _ _
  have digits : ∀ c : Str, 1 ≤ c.length ∧ c.length ≤ 8 ∧ isDigits c → sha1 c ∈ keys hashes →
      sha1 c ∈ keys (attack1 8 (startState hashes)).cracked := by
    intro c hc ht
    exact r1.covered _ _ _ i0 c (mem_digitCandidates 8 c hc.1 hc.2.1 hc.2.2) ht
  cases dict with
  | none =>
    rcases hspace with hd | ⟨lines, hl, _⟩
    · exact digits c hd htarget
    · exact absurd hl (by simp)
  | some lines0 =>
    have r2 := attack2_runs (loadDict lines0).1 (attack1 8 (startState hashes))
    have i2 := r2.inv _ _ _ i1
    have h2 : (attack2 (loadDict lines0).1 (attack1 8 (startState hashes))).hashes = hashes :=
      (r2.hashes _ _ _).trans h1
    have r3 := attack3_runs (priorityOf lines0)
      (attack2 (loadDict lines0).1 (attack1 8 (startState hashes)))
    have i3 := r3.inv _ _ _ i2
    have h3 : (attack3 (priorityOf lines0)
        (attack2 (loadDict lines0).1 (attack1 8 (startState hashes)))).hashes = hashes :=
      (r3.hashes _ _ _).trans h2
    have r4 := attack4_runs (loadDict lines0).1 (attack3 (priorityOf lines0)
      (attack2 (loadDict lines0).1 (attack1 8 (startState hashes))))
    show sha1 c ∈ keys (attack4 (loadDict lines0).1 (attack3 (priorityOf lines0)
      (attack2 (loadDict lines0).1 (attack1 8 (startState hashes))))).cracked
    rcases hspace with hd | ⟨lines, hl, hcase⟩
    · exact r4.keys_mono _ _ _ _ (r3.keys_mono _ _ _ _ (r2.keys_mono _ _ _ _
        (digits c hd htarget)))
    · have hlines : lines = lines0 := by
        simp only [Option.some.injEq] at hl
        exact hl.symm
      subst hlines
      rcases hcase with ⟨w, hw, rfl⟩ | ⟨a, ha, b, hb, rfl, h6, h28⟩ | ⟨w, hw, n, hn, rfl⟩
      · apply r4.keys_mono _ _ _ _ (r3.keys_mono _ _ _ _ _)
        apply r2.covered _ _ _ i1 (lower w) _ (by rw [h1]; exact htarget)
        exact List.mem_map_of_mem lower hw
      · apply r4.keys_mono _ _ _ _ _
        apply r3.covered _ _ _ i2 (lower (a ++ b)) _ (by rw [h2]; exact htarget)
        unfold pairCandidates
        rw [List.mem_filter]
        refine ⟨List.mem_map.mpr ⟨(a, b), List.mem_product.mpr ⟨ha, hb⟩, rfl⟩, ?_⟩
        simp only [comboInRange, decide_eq_true_eq]
        exact ⟨h6, h28⟩
      · apply r4.covered _ _ _ i3 (lower w ++ to_string n) _ (by rw [h3]; exact htarget)
        unfold hybridCandidates
        rw [List.mem_flatMap]
        exact ⟨w, hw, List.mem_map.mpr ⟨n, List.mem_range.mpr hn, rfl⟩⟩

theorem search_complete_witness :
    inSearchSpace (some [str "Ab"]) (str "ab") ∧
    sha1 (str "ab") ∈ keys [(str "da23614e02469a0d7c7bd1bdab5c9c474b1904dc", str "1")] ∧
    sha1 (str "ab") ∈ keys
      (runAttacks [(str "da23614e02469a0d7c7bd1bdab5c9c474b1904dc", str "1")]
        (some [str "Ab"])).cracked :=
  have hs : inSearchSpace (some [str "Ab"]) (str "ab") :=
    Or.inr ⟨[str "Ab"], rfl, Or.inl ⟨str "Ab", by decide, by decide⟩⟩
  have ht : sha1 (str "ab")
      ∈ keys [(str "da23614e02469a0d7c7bd1bdab5c9c474b1904dc", str "1")] := by decide
  ⟨hs, ht, (search_complete _ (some [str "Ab"]) (str "ab") hs ht).1⟩

/-! ## The buffer position stays in bounds -/

theorem SHA1.update_wf (s : SHA1) (data : List Byte) (hs : s.wf)
    (hlen : s.block_len = s.total_len % 64) :
    (s.update data).wf ∧ (s.update data).block_len = (s.update data).total_len % 64 := by
  obtain ⟨g1, g2, g3, _⟩ := SHA1.foldl_updateByte_spec data s hs []
  refine ⟨g1, ?_⟩
  show (data.foldl SHA1.updateByte s).block_len
    = ((data.foldl SHA1.updateByte s).total_len + data.length) % 2 ^ 64 % 64
  rw [g3, g2, hlen]
  omega

theorem SHA1.foldl_update_wf (chunks : List (List Byte)) : ∀ s : SHA1, s.wf →
    s.block_len = s.total_len % 64 →
    (chunks.foldl SHA1.update s).wf ∧
    (chunks.foldl SHA1.update s).block_len = (chunks.foldl SHA1.update s).total_len % 64 := by
  induction chunks with
  | nil => intro s h1 h2; exact ⟨h1, h2⟩
  | cons c rest ih =>
    intro s h1 h2
    obtain ⟨g1, g2⟩ := s.update_wf c h1 h2
    exact ih _ g1 g2

theorem SHA1.updateWrites_lt (data : List Byte) : ∀ s : SHA1, s.wf →
    ∀ i ∈ s.updateWrites data, i < 64 := by
  induction data with
  | nil => intro s _ i hi; simp [SHA1.updateWrites] at hi
  | cons v rest ih =>
    intro s hs i hi
    rw [SHA1.updateWrites] at hi
    rcases List.mem_cons.mp hi with h | h
    · rw [h]; exact hs.2
    · exact ih _ (s.updateByte_spec v hs []).1 i h

theorem SHA1.zeroFillWrites_lt (limit : Nat) : ∀ (fuel : Nat) (s : SHA1),
    ∀ i ∈ SHA1.zeroFillWrites limit fuel s, i < limit := by
  intro fuel
  induction fuel with
  | zero => intro s i hi; simp [SHA1.zeroFillWrites] at hi
  | succ fuel ih =>
    intro s i hi
    rw [SHA1.zeroFillWrites] at hi
    split at hi
    · rename_i hlt
      rcases List.mem_cons.mp hi with h | h
      · rw [h]; exact hlt
      · exact ih _ i h
    · simp at hi

theorem storeLenWrites_eight : storeLenWrites 8 = [63, 62, 61, 60, 59, 58, 57, 56] := rfl

/-- C17: after construction and any sequence of `update` calls the buffer has its 64
cells, `block_len < 64` and `block_len = total_len % 64`. Hence every write
`block[block_len++]` of a further `update` and every write of `finalize` hits an index
below 64, and `finalize` calls `process_block` once when `block_len <= 55` on entry and
twice when `block_len` is in `56..63`. -/
theorem buffer_position_in_bounds (chunks : List (List Byte)) :
    (chunks.foldl SHA1.update SHA1.new).block.length = 64 ∧
    (chunks.foldl SHA1.update SHA1.new).block_len < 64 ∧
    (chunks.foldl SHA1.update SHA1.new).block_len
      = (chunks.foldl SHA1.update SHA1.new).total_len % 64 ∧
    (∀ data : List Byte, ∀ i ∈ (chunks.foldl SHA1.update SHA1.new).updateWrites data,
      i < (chunks.foldl SHA1.update SHA1.new).block.length) ∧
    (∀ i ∈ (chunks.foldl SHA1.update SHA1.new).finalizeLog.1,
      i < (chunks.foldl SHA1.update SHA1.new).block.length) ∧
    storeLenWrites 8 = [63, 62, 61, 60, 59, 58, 57, 56] ∧
    ((chunks.foldl SHA1.update SHA1.new).block_len ≤ 55 →
      (chunks.foldl SHA1.update SHA1.new).finalizeLog.2 = 1) ∧
    (56 ≤ (chunks.foldl SHA1.update SHA1.new).block_len →
      (chunks.foldl SHA1.update SHA1.new).finalizeLog.2 = 2) := by
  obtain ⟨hwf, hlen⟩ := SHA1.foldl_update_wf chunks SHA1.new SHA1.new_wf rfl
  generalize chunks.foldl SHA1.update SHA1.new = s at hwf hlen ⊢
  have hbl : (s.put 0x80).block_len = s.block_len + 1 := rfl
  refine ⟨hwf.1, hwf.2, hlen, ?_, ?_, rfl, ?_, ?_⟩
  · intro data i hi
    rw [hwf.1]; exact s.updateWrites_lt data hwf i hi
  · intro i hi
    rw [hwf.1]
    unfold SHA1.finalizeLog at hi
    dsimp only at hi
    split at hi
    · simp only [List.mem_append, List.mem_singleton] at hi
      rcases hi with ((h | h) | h) | h
      · rw [h]; exact hwf.2
      · exact SHA1.zeroFillWrites_lt 64 _ _ i h
      · have := SHA1.zeroFillWrites_lt 56 _ _ i h
        omega
      · rw [storeLenWrites_eight] at h
        simp only [List.mem_cons, List.mem_singleton, List.not_mem_nil, or_false] at h
        omega
    · simp only [List.mem_append, List.mem_singleton] at hi
      rcases hi with (h | h) | h
      · rw [h]; exact hwf.2
      · have := SHA1.zeroFillWrites_lt 56 _ _ i h
        omega
      · rw [storeLenWrites_eight] at h
        simp only [List.mem_cons, List.mem_singleton, List.not_mem_nil, or_false] at h
        omega
  · intro h55
    unfold SHA1.finalizeLog
    dsimp only
    rw [if_neg (by rw [hbl]; omega)]
  · intro h56
    unfold SHA1.finalizeLog
    dsimp only
    rw [if_pos (by rw [hbl]; omega)]

end Sha1Bomb
